import Mathlib

/-! Code-intelligence stores: the test helpers of `dbstore`, the documentation queries of
`lsifstore`, and the check of the migration identifiers.

A shallow embedding of

* `enterprise/internal/codeintel/stores/dbstore/helpers_test.go`
* `enterprise/internal/codeintel/stores/lsifstore/documentation.go`
* `migrations/migrations_test.go`

SQL tables are lists of rows, Go maps are association lists, Go `int` is `Int`.
Go strings are byte strings; they are embedded as Lean strings, which is exact for the
operations used here (concatenation, comparison with a literal, decimal formatting).
-/

deriving instance DecidableEq for Except

namespace Dbstore

/-! ## The `lsif_uploads_visible_at_tip` table -/

/-- One row of `lsif_uploads_visible_at_tip`, with the three columns that
`insertVisibleAtTipInternal` writes. -/
structure TipMark where
  RepositoryID : Int
  UploadID : Int
  IsDefaultBranch : Bool
deriving DecidableEq, Repr

/-- The table `lsif_uploads_visible_at_tip`: its rows, in insertion order. -/
abbrev TipTable := List TipMark

/-- The SQL clause `ORDER BY upload_id` on a column of integers. -/
def orderByInt (ids : List Int) : List Int :=
  ids.insertionSort (fun a b => a ≤ b)

/-- Embeds `insertVisibleAtTipInternal`: one row `(repositoryID, uploadID, isDefaultBranch)` per
given upload, in one `INSERT ... VALUES` statement.  With no upload the joined row list is
empty, the statement ends after `VALUES`, the database rejects it and the helper calls
`t.Fatalf`; that outcome is the `error` branch. -/
def insertVisibleAtTipInternal (db : TipTable) (repositoryID : Int) (isDefaultBranch : Bool)
    (uploadIDs : List Int) : Except String TipTable :=
  let rows := uploadIDs.map (fun uploadID => TipMark.mk repositoryID uploadID isDefaultBranch)
  if rows.isEmpty then
    .error "unexpected error while updating uploads visible at tip"
  else
    .ok (db ++ rows)

/-- Embeds `insertVisibleAtTip`: the uploads refer to the tip of the default branch. -/
def insertVisibleAtTip (db : TipTable) (repositoryID : Int) (uploadIDs : List Int) :
    Except String TipTable :=
  insertVisibleAtTipInternal db repositoryID true uploadIDs

/-- Embeds `insertVisibleAtTipNonDefaultBranch`: the uploads refer to the tip of another
branch, or to a tag. -/
def insertVisibleAtTipNonDefaultBranch (db : TipTable) (repositoryID : Int)
    (uploadIDs : List Int) : Except String TipTable :=
  insertVisibleAtTipInternal db repositoryID false uploadIDs

/-- Embeds `getUploadsVisibleAtTip`:
`SELECT upload_id FROM lsif_uploads_visible_at_tip
 WHERE repository_id = %s AND is_default_branch ORDER BY upload_id`. -/
def getUploadsVisibleAtTip (db : TipTable) (repositoryID : Int) : List Int :=
  orderByInt
    ((db.filter (fun r => decide (r.RepositoryID = repositoryID) && r.IsDefaultBranch)).map
      (fun r => r.UploadID))

/-- Embeds `getProtectedUploads`:
`SELECT DISTINCT upload_id FROM lsif_uploads_visible_at_tip
 WHERE repository_id = %s ORDER BY upload_id`. -/
def getProtectedUploads (db : TipTable) (repositoryID : Int) : List Int :=
  orderByInt
    (((db.filter (fun r => decide (r.RepositoryID = repositoryID))).map
      (fun r => r.UploadID)).dedup)

/-! ## Commit identifiers -/

/-- The verb `%0<width>d` of `fmt.Sprintf` on a Go `int`: the decimal digits of the absolute
value, left-padded with zeros to `width` characters; a negative number gets a leading `-`,
which counts towards the width.  A number too long for the width is printed in full. -/
def sprintfZeroPaddedInt (width : Nat) (i : Int) : String :=
  let digits := Nat.toDigits 10 i.natAbs
  if i < 0 then
    String.mk ('-' :: (List.replicate (width - 1 - digits.length) '0' ++ digits))
  else
    String.mk (List.replicate (width - digits.length) '0' ++ digits)

/-- Embeds `makeCommit`: `fmt.Sprintf("%040d", i)`. -/
def makeCommit (i : Int) : String :=
  sprintfZeroPaddedInt 40 i

/-- A hexadecimal digit, in either case. -/
def isHexDigit (c : Char) : Bool :=
  ('0' ≤ c && c ≤ '9') || ('a' ≤ c && c ≤ 'f') || ('A' ≤ c && c ≤ 'F')

/-- A well-formed commit identifier: 40 characters, each a hexadecimal digit. -/
def isCommitID (s : String) : Bool :=
  decide (s.data.length = 40) && s.data.all isHexDigit

/-! ## Uploads and the commit graph view -/

/-- The fields of the `Upload` model that the helpers of this file read. -/
structure Upload where
  ID : Int
  Commit : String
  Root : String
  State : String
  RepositoryID : Int
  RepositoryName : String
  Indexer : String
deriving DecidableEq, Repr

/-- The type `commitgraph.UploadMeta`; `Distance` is unsigned. -/
structure UploadMeta where
  UploadID : Int
  Distance : Nat
deriving DecidableEq, Repr

/-- The slot token of `toCommitGraphView`: `fmt.Sprintf("%s:%s", root, indexer)`. -/
def slotToken (root indexer : String) : String :=
  root ++ ":" ++ indexer

/-- Embeds `toCommitGraphView`.  The view type `commitgraph.CommitGraphView`, its constructor
and its method `Add` are declared outside this file and are parameters. -/
def toCommitGraphView {V : Type} (newCommitGraphView : V)
    (add : V → UploadMeta → String → String → V) (uploads : List Upload) : V :=
  uploads.foldl
    (fun commitGraphView upload =>
      add commitGraphView { UploadID := upload.ID, Distance := 0 } upload.Commit
        (slotToken upload.Root upload.Indexer))
    newCommitGraphView

/-- One call of `CommitGraphView.Add`: the upload metadata, the commit and the slot token. -/
structure Registration where
  Meta : UploadMeta
  Commit : String
  Token : String
deriving DecidableEq, Repr

/-- Modelled from the spec: the Commit Graph View (`commitgraph.CommitGraphView`, declared
outside the given sources) as its annotations, "which uploads exist at which commit, keyed by
slot": the registrations made so far, in call order. -/
abbrev CommitGraphView := List Registration

/-- Modelled from the spec: `commitgraph.NewCommitGraphView`, the view with no upload. -/
def NewCommitGraphView : CommitGraphView := []

/-- Modelled from the spec: `CommitGraphView.Add` registers an upload at a commit under a slot
token. -/
def CommitGraphView.Add (view : CommitGraphView) (uploadMeta : UploadMeta)
    (commit token : String) : CommitGraphView :=
  view ++ [{ Meta := uploadMeta, Commit := commit, Token := token }]

/-- The registration `toCommitGraphView` makes for an upload. -/
def registrationOf (upload : Upload) : Registration :=
  { Meta := { UploadID := upload.ID, Distance := 0 }
    Commit := upload.Commit
    Token := slotToken upload.Root upload.Indexer }

/-! ## Nearest uploads and link compression -/

/-- A commit of the Commit Graph Source: its identifier and the identifiers of its parents. -/
structure CommitNode where
  Commit : String
  Parents : List String
deriving DecidableEq, Repr

/-- The type `commitgraph.LinkRelationship`, with the fields `insertLinks` reads. -/
structure LinkRelationship where
  AncestorCommit : String
  Distance : Nat
deriving DecidableEq, Repr

/-- Modelled from the spec: a NearestEntry, "for a commit, a mapping from Slot to UploadMeta",
as the list of its bindings: `Token` is the slot, `Meta` the upload and its distance from the
commit, `Commit` the commit that defines the upload (it breaks ties).  The resolver below
(package `commitgraph`) is not among the given sources. -/
abbrev NearestEntry := List Registration

/-- Modelled from the spec: a NearestEntry "with every distance increased by `distance`". -/
def shiftDistance (distance : Nat) (entry : NearestEntry) : NearestEntry :=
  entry.map (fun r =>
    { r with Meta := { UploadID := r.Meta.UploadID, Distance := r.Meta.Distance + distance } })

/-- Modelled from the spec: the choice between two uploads of one slot, "smaller distance
wins, then smaller commit hash, then smaller uploadID". -/
def nearer (a b : Registration) : Bool :=
  decide (a.Meta.Distance < b.Meta.Distance) ||
    (decide (a.Meta.Distance = b.Meta.Distance) &&
      (decide (a.Commit < b.Commit) ||
        (decide (a.Commit = b.Commit) && decide (a.Meta.UploadID < b.Meta.UploadID))))

/-- Modelled from the spec: adds a candidate to an entry, "keeping the minimum distance per
slot": the candidate replaces the binding of its slot when it is nearer, and is a new
binding when its slot has none. -/
def insertNearest : NearestEntry → Registration → NearestEntry
  | [], cand => [cand]
  | e :: rest, cand =>
    if e.Token = cand.Token then
      (if nearer cand e then cand else e) :: rest
    else
      e :: insertNearest rest cand

/-- Modelled from the spec: "the union, per slot" of a list of candidates. -/
def nearestPerSlot (cands : List Registration) : NearestEntry :=
  cands.foldl insertNearest []

/-- Modelled from the spec: the uploads registered in the view at a commit, "its own
directly-defined uploads at distance 0". -/
def uploadsDefinedAt (view : CommitGraphView) (commit : String) : List Registration :=
  (view.filter (fun r => decide (r.Commit = commit))).map (fun r =>
    { r with Meta := { UploadID := r.Meta.UploadID, Distance := 0 } })

/-- Modelled from the spec: the candidates of a commit: "(a) its own directly-defined uploads
at distance 0, and (b) each parent's NearestEntry with distances incremented by 1".  A parent
without entry is a boundary of the history and contributes nothing. -/
def candidatesAt (entryOf : String → Option NearestEntry) (view : CommitGraphView)
    (node : CommitNode) : List Registration :=
  uploadsDefinedAt view node.Commit ++
    (node.Parents.map (fun p =>
      match entryOf p with
      | some entry => shiftDistance 1 entry
      | none => [])).flatten

/-- Modelled from the spec: one step of the uncompressed per-commit algorithm; the commits
are processed "parents before children", so the entries of the parents are in `entries`. -/
def nearestStep (view : CommitGraphView) (entries : List (String × NearestEntry))
    (node : CommitNode) : List (String × NearestEntry) :=
  (node.Commit, nearestPerSlot (candidatesAt (fun p => entries.lookup p) view node)) :: entries

/-- Modelled from the spec: the Nearest-Upload Resolver, uncompressed: the NearestEntry of
every commit of a graph given in topological order. -/
def calculateNearestEntries (view : CommitGraphView) (graph : List CommitNode) :
    List (String × NearestEntry) :=
  graph.foldl (nearestStep view) []

/-- Modelled from the spec: the compressed index: full NearestEntries and Links. -/
structure CompressedIndex where
  Entries : List (String × NearestEntry)
  Links : List (String × LinkRelationship)
deriving DecidableEq, Repr

/-- Modelled from the spec: resolving a commit in the compressed index: through its Link,
"ancestorCommit's NearestEntry with every distance increased by `distance`", or its own
full entry. -/
def resolveNearest (index : CompressedIndex) (commit : String) : Option NearestEntry :=
  match index.Links.lookup commit with
  | some link => (index.Entries.lookup link.AncestorCommit).map (shiftDistance link.Distance)
  | none => index.Entries.lookup commit

/-- Modelled from the spec: the index with the full NearestEntry of a commit added. -/
def materialize (view : CommitGraphView) (index : CompressedIndex) (node : CommitNode) :
    CompressedIndex :=
  { index with
    Entries :=
      (node.Commit, nearestPerSlot (candidatesAt (resolveNearest index) view node)) ::
        index.Entries }

/-- Modelled from the spec: one step of the Link Compressor.  A commit with a single parent
and no upload of its own gets a `Link(C → nearestFullAncestor, cumulative distance)`; a full
entry is materialized at commits with zero or several parents, at commits that define an
upload, and where the parent has no entry. -/
def compressStep (view : CommitGraphView) (index : CompressedIndex) (node : CommitNode) :
    CompressedIndex :=
  if (uploadsDefinedAt view node.Commit).isEmpty then
    match node.Parents with
    | [p] =>
      match index.Links.lookup p with
      | some link =>
        { index with
          Links := (node.Commit, { AncestorCommit := link.AncestorCommit
                                   Distance := link.Distance + 1 }) :: index.Links }
      | none =>
        match index.Entries.lookup p with
        | some _ =>
          { index with
            Links := (node.Commit, { AncestorCommit := p, Distance := 1 }) :: index.Links }
        | none => materialize view index node
    | _ => materialize view index node
  else
    materialize view index node

/-- Modelled from the spec: the Nearest-Upload Resolver followed by the Link Compressor, on a
graph given in topological order. -/
def compressNearestEntries (view : CommitGraphView) (graph : List CommitNode) :
    CompressedIndex :=
  graph.foldl (compressStep view) { Entries := [], Links := [] }

/-- Modelled from the spec: the Lookup Service, `NearestUploads(commit)`: "resolves and
returns the commit's NearestEntry (decompressing via Link chain as needed)". -/
def NearestUploads (view : CommitGraphView) (graph : List CommitNode) (commit : String) :
    Option NearestEntry :=
  resolveNearest (compressNearestEntries view graph) commit

/-- The invariant of the two passes over the graph: the compressed index resolves every
commit to the entry of the uncompressed algorithm, every Link ends at a commit that owns a
full entry and has no Link, and no entry binds a slot twice. -/
structure Agree (index : CompressedIndex) (entries : List (String × NearestEntry)) : Prop where
  resolve : ∀ c, resolveNearest index c = entries.lookup c
  target : ∀ c link, index.Links.lookup c = some link →
    (∃ e, index.Entries.lookup link.AncestorCommit = some e) ∧
      index.Links.lookup link.AncestorCommit = none
  slots : ∀ c e, entries.lookup c = some e → (e.map (fun r => r.Token)).Nodup

/-! ## The tables `lsif_nearest_uploads` and `lsif_nearest_uploads_links` -/

/-- The assignment `uploadsByLength[uploadID] = distance` on a Go `map[int]int`, kept as an
association list with one pair per key. -/
def setDistance (uploadsByLength : List (Int × Nat)) (uploadID : Int) (distance : Nat) :
    List (Int × Nat) :=
  if uploadsByLength.any (fun kv => kv.1 == uploadID) then
    uploadsByLength.map (fun kv => if kv.1 == uploadID then (uploadID, distance) else kv)
  else
    uploadsByLength ++ [(uploadID, distance)]

/-- The inner loop of `insertNearestUploads`: the map from upload ID to distance that is
serialized as the JSON object of the row. -/
def uploadsByLength (uploadMetas : List UploadMeta) : List (Int × Nat) :=
  uploadMetas.foldl (fun m uploadMeta => setDistance m uploadMeta.UploadID uploadMeta.Distance) []

/-- One row of `lsif_nearest_uploads`; `Uploads` is the JSON object, upload ID to distance,
and `Commit` stands for the `commit_bytea` column. -/
structure NearestUploadsRow where
  RepositoryID : Int
  Commit : String
  Uploads : List (Int × Nat)
deriving DecidableEq, Repr

/-- One row of `lsif_nearest_uploads_links`. -/
structure LinkRow where
  RepositoryID : Int
  Commit : String
  AncestorCommit : String
  Distance : Nat
deriving DecidableEq, Repr

/-- Embeds `insertNearestUploads`: one row per commit of the map, in one `INSERT ... VALUES`
statement; as in `insertVisibleAtTipInternal`, the statement is ill-formed when the map is
empty and the helper fails.  The Go map is given as the list of its bindings. -/
def insertNearestUploads (db : List NearestUploadsRow) (repositoryID : Int)
    (uploads : List (String × List UploadMeta)) : Except String (List NearestUploadsRow) :=
  let rows := uploads.map (fun cu =>
    NearestUploadsRow.mk repositoryID cu.1 (uploadsByLength cu.2))
  if rows.isEmpty then
    .error "unexpected error while updating commit graph"
  else
    .ok (db ++ rows)

/-- Embeds `insertLinks`: nothing is done for an empty map, else one row per link. -/
def insertLinks (db : List LinkRow) (repositoryID : Int)
    (links : List (String × LinkRelationship)) : List LinkRow :=
  if links.length = 0 then
    db
  else
    db ++ links.map (fun cl => LinkRow.mk repositoryID cl.1 cl.2.AncestorCommit cl.2.Distance)

/-- Modelled from the spec: the stored row of a commit in `lsif_nearest_uploads` (the query
of the Lookup Service, `makeVisibleUploadsQuery`, is not among the given sources). -/
def nearestUploadsOf (nearest : List NearestUploadsRow) (repositoryID : Int)
    (commit : String) : Option (List (Int × Nat)) :=
  (nearest.find? (fun r => decide (r.RepositoryID = repositoryID) && decide (r.Commit = commit))).map
    (fun r => r.Uploads)

/-- Modelled from the spec: the uploads of a commit read from the two tables: through the
Link of the commit, "ancestorCommit's NearestEntry with every distance increased by
`distance`", else the row of the commit itself. -/
def visibleUploadsOf (nearest : List NearestUploadsRow) (links : List LinkRow)
    (repositoryID : Int) (commit : String) : Option (List (Int × Nat)) :=
  match links.find? (fun l => decide (l.RepositoryID = repositoryID) && decide (l.Commit = commit)) with
  | some link =>
    (nearestUploadsOf nearest repositoryID link.AncestorCommit).map
      (fun uploads => uploads.map (fun kv => (kv.1, kv.2 + link.Distance)))
  | none => nearestUploadsOf nearest repositoryID commit

/-- The argument of `insertNearestUploads` for the full entries of a compressed index: the
upload metadata of each entry. -/
def uploadMetasOf (entries : List (String × NearestEntry)) : List (String × List UploadMeta) :=
  entries.map (fun ce => (ce.1, ce.2.map (fun r => r.Meta)))

/-! ## The `repo` table -/

/-- One row of `repo`, with the two columns `insertRepo` writes. -/
structure RepoRow where
  ID : Int
  Name : String
deriving DecidableEq, Repr

/-- The verb `%d` of `fmt.Sprintf` on a Go `int`. -/
def sprintfInt (i : Int) : String :=
  if i < 0 then String.mk ('-' :: Nat.toDigits 10 i.natAbs)
  else String.mk (Nat.toDigits 10 i.natAbs)

/-- Embeds `insertRepo`: the name defaults to `fmt.Sprintf("n-%d", id)`, then
`INSERT INTO repo (id, name) VALUES (%s, %s) ON CONFLICT (id) DO NOTHING`.  The table is
taken with the conflict target `id` as its only constraint. -/
def insertRepo (db : List RepoRow) (id : Int) (name : String) : List RepoRow :=
  let name := if name = "" then "n-" ++ sprintfInt id else name
  if db.any (fun r => decide (r.ID = id)) then db else db ++ [{ ID := id, Name := name }]

/-! ## Sorting visible uploads -/

/-- The value of a 64-bit signed machine integer after an operation whose exact result is
`x`: the result wraps around. -/
def wrapInt64 (x : Int) : Int :=
  (x + 2 ^ 63) % 2 ^ 64 - 2 ^ 63

/-- The comparator of `normalizeVisibleUploads`:
`uploads[i].UploadID-uploads[j].UploadID < 0`, the difference being a Go `int`. -/
def uploadIDLess (a b : UploadMeta) : Bool :=
  decide (wrapInt64 (a.UploadID - b.UploadID) < 0)

/-- The inner loop of the insertion sort of package `sort`,
`for j := i; j > a && less(j, j-1); j-- { swap(j, j-1) }`: the element `x` moves towards the
front of the sorted prefix, which is given last element first. -/
def insertBackwards {α : Type} (less : α → α → Bool) (x : α) : List α → List α
  | [] => [x]
  | y :: prefixRev => if less x y then y :: insertBackwards less x prefixRev else x :: y :: prefixRev

/-- The call `sort.Slice(s, less)`, as the insertion sort that package `sort` runs on a slice
of fewer than 12 elements. -/
def sortSlice {α : Type} (less : α → α → Bool) (s : List α) : List α :=
  (s.foldl (fun prefixRev x => insertBackwards less x prefixRev) []).reverse

/-- Embeds `normalizeVisibleUploads`: every list of the map is sorted with the comparator;
the map is given as the list of its bindings. -/
def normalizeVisibleUploads (uploadMetas : List (String × List UploadMeta)) :
    List (String × List UploadMeta) :=
  uploadMetas.map (fun cu => (cu.1, sortSlice uploadIDLess cu.2))

end Dbstore

namespace Lsifstore

/-! ## Documentation result IDs and path IDs -/

/-- The two errors of `strconv.ParseUint`, with the offending text (`NumError.Num`). -/
inductive NumError where
  | invalidSyntax (num : String)
  | outOfRange (num : String)
deriving DecidableEq, Repr

/-- One step of the digit loop of `strconv.ParseUint(s, 10, 64)`: `some d` for a decimal
digit, `none` for any other character. -/
def decimalDigit? (c : Char) : Option Nat :=
  if '0' ≤ c ∧ c ≤ '9' then some (c.toNat - '0'.toNat) else none

/-- The digit loop of `strconv.ParseUint(s, 10, 64)` from accumulator `n` on. -/
def parseUintLoop (s0 : String) : List Char → Nat → Except NumError Nat
  | [], n => .ok n
  | c :: cs, n =>
    match decimalDigit? c with
    | none => .error (.invalidSyntax s0)
    | some d =>
      if n ≥ (2 ^ 64 - 1) / 10 + 1 then .error (.outOfRange s0)
      else if n * 10 + d > 2 ^ 64 - 1 then .error (.outOfRange s0)
      else parseUintLoop s0 cs (n * 10 + d)

/-- The call `strconv.ParseUint(s, 10, 64)`. -/
def parseUint (s : String) : Except NumError Nat :=
  if s = "" then .error (.invalidSyntax s) else parseUintLoop s s.data 0

/-- The call `strconv.FormatUint(n, 10)`. -/
def formatUint (n : Nat) : String :=
  String.mk (Nat.toDigits 10 n)

/-- The errors `documentationIDsToPathIDs` returns: that of parsing an ID, or that of the
query. -/
inductive Error where
  | parse (e : NumError)
  | query (msg : String)
deriving DecidableEq, Repr

/-- A Go `map[precise.ID]string`, as an association list with one pair per key. -/
abbrev PathIDMap := List (String × String)

/-- The assignment `values[key] = pathID` on a Go map. -/
def mapSet (values : PathIDMap) (key pathID : String) : PathIDMap :=
  if values.any (fun kv => kv.1 == key) then
    values.map (fun kv => if kv.1 == key then (key, pathID) else kv)
  else
    values ++ [(key, pathID)]

/-- The keys of a Go map. -/
def mapKeys (values : PathIDMap) : List String :=
  values.map Prod.fst

/-- Embeds `scanDocumentationPathIDs`: from the rows `(result_id, path_id)` of the query, or
its error, the map from the decimal text of each result ID to its path ID. -/
def scanDocumentationPathIDs (rows : Except String (List (Nat × String))) :
    Except Error (Option PathIDMap) :=
  match rows with
  | .error queryErr => .error (.query queryErr)
  | .ok rows =>
    .ok (some (rows.foldl (fun values row => mapSet values (formatUint row.1) row.2) []))

/-- The first loop of `documentationIDsToPathIDs`: the numbers of the non-empty IDs, in
order, or the error of the first ID that does not parse. -/
def collectWantIDs : List String → List Nat → Except NumError (List Nat)
  | [], wantIDs => .ok wantIDs
  | id :: ids, wantIDs =>
    if id ≠ "" then
      match parseUint id with
      | .error err => .error err
      | .ok idInt => collectWantIDs ids (wantIDs ++ [idInt])
    else
      collectWantIDs ids wantIDs

/-- Embeds `documentationIDsToPathIDs`.  `query bundleID wantIDs` stands for running
`documentationIDsToPathIDsQuery` with these two arguments.  The result comes with the list
of the queries that were run; `none` is the nil map. -/
def documentationIDsToPathIDs (query : Int → List Nat → Except String (List (Nat × String)))
    (bundleID : Int) (ids : List String) :
    Except Error (Option PathIDMap) × List (Int × List Nat) :=
  match collectWantIDs ids [] with
  | .error err => (.error (.parse err), [])
  | .ok wantIDs =>
    if wantIDs.length = 0 then
      (.ok none, [])
    else
      (scanDocumentationPathIDs (query bundleID wantIDs), [(bundleID, wantIDs)])

/-- One row of `lsif_data_documentation_mappings`. -/
structure MappingRow where
  DumpID : Int
  ResultID : Int
  PathID : String
  FilePath : Option String
deriving DecidableEq, Repr

/-- The query `documentationIDsToPathIDsQuery` on a content of
`lsif_data_documentation_mappings`:
`SELECT result_id, path_id FROM lsif_data_documentation_mappings
 WHERE dump_id = %s AND result_id = ANY (%s)`.
The column `result_id` is a signed integer; the rows selected have one of the requested,
unsigned, numbers and are read as such. -/
def documentationIDsToPathIDsQuery (mappings : List MappingRow) (bundleID : Int)
    (wantIDs : List Nat) : Except String (List (Nat × String)) :=
  .ok ((mappings.filter (fun r =>
      decide (r.DumpID = bundleID) && decide (r.ResultID ∈ wantIDs.map Int.ofNat))).map
    (fun r => (r.ResultID.toNat, r.PathID)))

/-! ## Splitting the search query -/

/-- The predicate `unicode.IsSpace`. -/
def isSpace (c : Char) : Bool :=
  c = '\t' || c = '\n' || c.toNat = 0x0B || c.toNat = 0x0C || c = '\r' || c = ' ' ||
    c.toNat = 0x85 || c.toNat = 0xA0 || c.toNat = 0x1680 ||
    (0x2000 ≤ c.toNat && c.toNat ≤ 0x200A) || c.toNat = 0x2028 || c.toNat = 0x2029 ||
    c.toNat = 0x202F || c.toNat = 0x205F || c.toNat = 0x3000

/-- The call `strings.TrimSpace(s)`, on the characters of `s`. -/
def trimSpace (s : List Char) : List Char :=
  ((s.dropWhile isSpace).reverse.dropWhile isSpace).reverse

/-- The call `strings.Index(s, ":")`: the position of the first `:`, or `-1`.  The position
counts characters; `:` is a single byte, so the slices `s[:i]` and `s[i+1:]` of the source
are the characters before and after that position. -/
def indexColon (s : List Char) : Int :=
  if ':' ∈ s then (s.indexOf ':' : Nat) else -1

/-- The first lines of `DocumentationSearch`: the pair `(metaQuery, mainQuery)`. -/
def splitQuery (query : String) : String × String :=
  let i := indexColon query.data
  if i ≠ -1 then
    (String.mk (trimSpace (query.data.take i.toNat)),
     String.mk (trimSpace (query.data.drop (i.toNat + 1))))
  else
    (query, query)

/-! ## Result IDs and file paths of a path ID -/

/-- The database behind `s.Store`: the content of `lsif_data_documentation_mappings`, and
the error of `s.Store.Query` when the database fails. -/
structure Database where
  Mappings : List MappingRow
  QueryErr : Option String
deriving DecidableEq, Repr

/-- The call `strconv.FormatInt(i, 10)`. -/
def formatInt (i : Int) : String :=
  if i < 0 then String.mk ('-' :: Nat.toDigits 10 i.natAbs)
  else String.mk (Nat.toDigits 10 i.natAbs)

/-- The query `documentationPathIDToIDQuery`:
`SELECT result_id FROM lsif_data_documentation_mappings
 WHERE dump_id = %s AND path_id = %s LIMIT 1`; the rows, or the error of the query. -/
def documentationPathIDToIDQuery (db : Database) (bundleID : Int) (pathID : String) :
    Except String (List Int) :=
  match db.QueryErr with
  | some queryErr => .error queryErr
  | none =>
    .ok (((db.Mappings.filter (fun r =>
      decide (r.DumpID = bundleID) && decide (r.PathID = pathID))).map
        (fun r => r.ResultID)).take 1)

/-- Embeds `scanFirstDocumentationResultID`: the pair `(resultID, err)`. -/
def scanFirstDocumentationResultID (rows : Except String (List Int)) : Int × Option String :=
  match rows with
  | .error queryErr => (-1, some queryErr)
  | .ok [] => (-1, none)
  | .ok (resultID :: _) => (resultID, none)

/-- Embeds `documentationPathIDToID`: the pair `(id, err)`. -/
def documentationPathIDToID (db : Database) (bundleID : Int) (pathID : String) :
    String × Option String :=
  let (resultID, err) :=
    scanFirstDocumentationResultID (documentationPathIDToIDQuery db bundleID pathID)
  if err ≠ none then
    ("", err)
  else if resultID = -1 then
    ("", err)
  else
    (formatInt resultID, none)

/-- The query `documentationPathIDToFilePathQuery`:
`SELECT file_path FROM lsif_data_documentation_mappings
 WHERE dump_id = %s AND path_id = %s LIMIT 1`; `file_path` may be null. -/
def documentationPathIDToFilePathQuery (db : Database) (bundleID : Int) (pathID : String) :
    Except String (List (Option String)) :=
  match db.QueryErr with
  | some queryErr => .error queryErr
  | none =>
    .ok (((db.Mappings.filter (fun r =>
      decide (r.DumpID = bundleID) && decide (r.PathID = pathID))).map
        (fun r => r.FilePath)).take 1)

/-- Embeds `scanFirstDocumentationFilePath`: the pair `(filePath, err)`; the file path is nil
when no row matches and when the column is null. -/
def scanFirstDocumentationFilePath (rows : Except String (List (Option String))) :
    Option String × Option String :=
  match rows with
  | .error queryErr => (none, some queryErr)
  | .ok [] => (none, none)
  | .ok (filePath :: _) => (filePath, none)

/-- Embeds `documentationPathIDToFilePath`. -/
def documentationPathIDToFilePath (db : Database) (bundleID : Int) (pathID : String) :
    Option String × Option String :=
  scanFirstDocumentationFilePath (documentationPathIDToFilePathQuery db bundleID pathID)

/-! ## Definitions of a documented symbol -/

/-- The fields of `precise.RangeData` that `documentationDefinitions` and its extractor
read. -/
structure RangeData where
  DefinitionResultID : String
  DocumentationResultID : String
deriving DecidableEq, Repr

/-- The errors `documentationDefinitions` returns.  `notFound` is the value of
`errors.New("not found")`, `wrapped` that of `errors.Wrap(err, message)`, `store` an error
of the document query or of `s.locations`. -/
inductive DefinitionsError where
  | notFound
  | wrapped (err : String) (message : String)
  | store (err : String)
deriving DecidableEq, Repr

/-- The outcome of `documentationDefinitions`: the triple `(locations, totalCount, err)` it
returns, `none` being nil, or the panic of `make([]Location, 0, limit)` on a negative
limit. -/
inductive Outcome (Location : Type) where
  | returned (locations : Option (List Location)) (totalCount : Int)
      (err : Option DefinitionsError)
  | panicked
deriving DecidableEq, Repr

/-- The error of an outcome. -/
def Outcome.err {Location : Type} : Outcome Location → Option DefinitionsError
  | .returned _ _ err => err
  | .panicked => none

/-- The parts of the store that `documentationDefinitions` calls and that are declared
outside the given sources: `scanFirstDocumentData` on `locationsDocumentQuery` (the ranges of
the document of a path, in the order the loop visits them; `none` when no document exists),
`extractResultIDs`, and `s.locations` (the locations per result ID and the total count). -/
structure LocationStore (Location : Type) where
  documentRanges : Int → String → Except String (Option (List RangeData))
  extractResultIDs : List RangeData → (RangeData → String) → List String
  locations : Int → List String → Int → Int → Except String (List (String × List Location) × Int)

/-- The first range of the loop whose `DocumentationResultID` is the result ID. -/
def findRange (ranges : List RangeData) (resultID : String) : Option RangeData :=
  ranges.find? (fun rn => decide (rn.DocumentationResultID = resultID))

/-- Embeds `documentationDefinitions`. -/
def documentationDefinitions {Location : Type} (db : Database) (store : LocationStore Location)
    (extractor : RangeData → String) (bundleID : Int) (pathID : String) (resultID : String)
    (limit offset : Int) : Outcome Location :=
  match documentationPathIDToFilePath db bundleID pathID with
  | (_, some err) => .returned none 0 (some (.wrapped err "documentationPathIDToFilePath"))
  | (none, none) => .returned none 0 none
  | (some filePath, none) =>
    match store.documentRanges bundleID filePath with
    | .error err => .returned none 0 (some (.store err))
    | .ok none => .returned none 0 none
    | .ok (some ranges) =>
      match findRange ranges resultID with
      | none => .returned none 0 (some .notFound)
      | some found =>
        let orderedResultIDs := store.extractResultIDs [found] extractor
        match store.locations bundleID orderedResultIDs limit offset with
        | .error err => .returned none 0 (some (.store err))
        | .ok (locationsMap, totalCount) =>
          if limit < 0 then .panicked
          else
            .returned
              (some ((orderedResultIDs.map (fun id => (locationsMap.lookup id).getD [])).flatten))
              totalCount none

/-- Embeds `DocumentationDefinitions`. -/
def DocumentationDefinitions {Location : Type} (db : Database) (store : LocationStore Location)
    (bundleID : Int) (pathID : String) (limit offset : Int) : Outcome Location :=
  match documentationPathIDToID db bundleID pathID with
  | (resultID, err) =>
    if err ≠ none ∨ resultID = "" then
      .returned none 0 (err.map .store)
    else
      documentationDefinitions db store (fun r => r.DefinitionResultID) bundleID pathID resultID
        limit offset

/-! ## Documentation search -/

/-- A value bound to a placeholder of a query. -/
inductive SqlValue where
  | str (s : String)
  | int (n : Int)
deriving DecidableEq, Repr

/-- A query of package `sqlf`: its format and its arguments. -/
structure SqlQuery where
  Fmt : String
  Args : List SqlValue
deriving DecidableEq, Repr

/-- An argument of `sqlf.Sprintf`: a query, which is spliced in, or a value. -/
inductive SprintfArg where
  | query (q : SqlQuery)
  | value (v : SqlValue)
deriving DecidableEq, Repr

/-- The call `sqlf.Join(queries, sep)`. -/
def sqlfJoin (queries : List SqlQuery) (sep : String) : SqlQuery :=
  { Fmt := sep.intercalate (queries.map (fun q => q.Fmt))
    Args := (queries.map (fun q => q.Args)).flatten }

/-- The call `strings.Fields(s)`, on the characters of `s`: the maximal runs of characters
that are not white space. -/
def fieldsAux : List Char → List Char → List (List Char)
  | [], cur => if cur.isEmpty then [] else [cur.reverse]
  | c :: cs, cur =>
    if isSpace c then
      (if cur.isEmpty then fieldsAux cs [] else cur.reverse :: fieldsAux cs [])
    else fieldsAux cs (c :: cur)

/-- The call `strings.Fields(s)`. -/
def fields (s : String) : List String :=
  (fieldsAux s.data []).map String.mk

/-- Embeds `lexemeSequence`; `lexemes` is declared outside the given sources. -/
def lexemeSequence (lexemes : String → List String) (s : String) (subStringMatches : Bool) :
    String :=
  " <-> ".intercalate
    ((lexemes s).map (fun lexeme => if subStringMatches then lexeme ++ ":*" else lexeme))

/-- Embeds `textSearchQuery`. -/
def textSearchQuery (lexemes : String → List String) (columnName query : String)
    (subStringMatches : Bool) : SqlQuery :=
  sqlfJoin
    ((fields query).map (fun term =>
      { Fmt := columnName ++ " @@ %s"
        Args := [.str (lexemeSequence lexemes term subStringMatches)] }))
    " OR "

/-- Embeds `textSearchRank`. -/
def textSearchRank (lexemes : String → List String) (columnName query : String)
    (subStringMatches : Bool) : SqlQuery :=
  sqlfJoin
    ((fields query).map (fun term =>
      { Fmt := "ts_rank_cd(" ++ columnName ++ ", %s, 2)"
        Args := [.str (lexemeSequence lexemes term subStringMatches)] }))
    " + "

/-- A piece of the constant `documentationSearchQuery`: text, an occurrence of `$SUFFIX`, or
a verb `%s`. -/
inductive Piece where
  | text (s : String)
  | suffix
  | verb
deriving DecidableEq, Repr

/-- The constant `documentationSearchQuery`, cut at its occurrences of `$SUFFIX` and `%s`. -/
def documentationSearchQuery : List Piece := [
  .text ("\n" ++
      "-- source: enterprise/internal/codeintel/stores/lsifstore/documentation.go:DocumentationSearch\n" ++
      "SELECT\n" ++
      "\tid,\n" ++
      "\trepo_id,\n" ++
      "\tpath_id,\n" ++
      "\tdetail,\n" ++
      "\tsearch_key,\n" ++
      "\tlabel,\n" ++
      "\tlang_name,\n" ++
      "\trepo_name,\n" ++
      "\ttags,\n" ++
      "\tsearch_key_rank,\n" ++
      "\tsearch_key_reverse_rank,\n" ++
      "\tlabel_rank,\n" ++
      "\tlabel_reverse_rank\n" ++
      "FROM (\n" ++
      "    WITH\n" ++
      "        matching_lang_names AS (\n" ++
      "            SELECT id, lang_name\n" ++
      "            FROM lsif_data_docs_search_lang_names_"),
  .suffix,
  .text ("\n" ++
      "            WHERE "),
  .verb,
  .text (" LIMIT 1\n" ++
      "        ),\n" ++
      "        matching_repo_names AS (\n" ++
      "            SELECT id, repo_name\n" ++
      "            FROM lsif_data_docs_search_repo_names_"),
  .suffix,
  .text ("\n" ++
      "            WHERE "),
  .verb,
  .text (" LIMIT 1\n" ++
      "        ),\n" ++
      "        matching_tags AS (\n" ++
      "            SELECT id, tags\n" ++
      "            FROM lsif_data_docs_search_tags_"),
  .suffix,
  .text ("\n" ++
      "            WHERE "),
  .verb,
  .text (" LIMIT 1\n" ++
      "        )\n" ++
      "    SELECT\n" ++
      "\t\tlsif_data_docs_search_"),
  .suffix,
  .text (".id::bigint,\n" ++
      "        repo_id,\n" ++
      "        path_id,\n" ++
      "        detail,\n" ++
      "        search_key,\n" ++
      "        label,\n" ++
      "        lang_name,\n" ++
      "        repo_name,\n" ++
      "        tags,\n" ++
      "\t\t"),
  .verb,
  .text (" AS search_key_rank,\n" ++
      "\t\t"),
  .verb,
  .text (" AS search_key_reverse_rank,\n" ++
      "\t\t"),
  .verb,
  .text (" AS label_rank,\n" ++
      "\t\t"),
  .verb,
  .text (" AS label_reverse_rank\n" ++
      "    FROM lsif_data_docs_search_"),
  .suffix,
  .text ("\n" ++
      "    JOIN lsif_data_docs_search_lang_names_"),
  .suffix,
  .text (" ON lsif_data_docs_search_lang_names_"),
  .suffix,
  .text (".id = lang_name_id\n" ++
      "    JOIN lsif_data_docs_search_repo_names_"),
  .suffix,
  .text (" ON lsif_data_docs_search_repo_names_"),
  .suffix,
  .text (".id = repo_name_id\n" ++
      "    JOIN lsif_data_docs_search_tags_"),
  .suffix,
  .text (" ON lsif_data_docs_search_tags_"),
  .suffix,
  .text (".id = tags_id\n" ++
      "    WHERE\n" ++
      "        ("),
  .verb,
  .text (")\n" ++
      "\n" ++
      "\t\t-- If we found matching lang names, filter to just those.\n" ++
      "        AND (CASE WHEN (SELECT COUNT(*) FROM matching_lang_names) > 0 THEN\n" ++
      "            lang_name_id = ANY(array(SELECT id FROM matching_lang_names))\n" ++
      "        ELSE lang_name_id IS NOT NULL END)\n" ++
      "\n" ++
      "\t\t-- If we found matching repo names, filter to just those.\n" ++
      "        AND (CASE WHEN (SELECT COUNT(*) FROM matching_repo_names) > 0 THEN\n" ++
      "            repo_name_id = ANY(array(SELECT id FROM matching_repo_names))\n" ++
      "        ELSE repo_name_id IS NOT NULL END)\n" ++
      "\n" ++
      "\t\t-- If we found matching tags, filter to just those.\n" ++
      "\t\tAND (CASE WHEN (SELECT COUNT(*) FROM matching_tags) > 0 THEN\n" ++
      "            tags_id = ANY(array(SELECT id FROM matching_tags))\n" ++
      "        ELSE tags_id IS NOT NULL END)\n" ++
      "\n" ++
      "\t-- maximum candidates we\x27ll consider: the more candidates we have the better ranking we get,\n" ++
      "\t-- but the slower searching is. See https://about.sourcegraph.com/blog/postgres-text-search-balancing-query-time-and-relevancy/\n" ++
      "\t-- 10,000 is an arbitrary choice based on current Sourcegraph.com corpus size and performance,\n" ++
      "\t-- it\x27ll be tuned as we scale to more repos if perf gets worse or we find we need better\n" ++
      "\t-- relevance.\n" ++
      "    LIMIT 10000\n" ++
      ") sub\n" ++
      "ORDER BY\n" ++
      "\t-- First rank by search keys, as those are ideally super specific if you write the correct\n" ++
      "\t-- format.\n" ++
      "    GREATEST(search_key_rank, search_key_reverse_rank) DESC,\n" ++
      "\n" ++
      "\t-- Secondarily rank by label, e.g. function signature. These contain less specific info and\n" ++
      "\t-- due to e.g. containing arguments a function takes, have higher chance of collision with the\n" ++
      "\t-- desired symbol result, producing a bad match.\n" ++
      "    GREATEST(label_rank, label_reverse_rank) DESC,\n" ++
      "\n" ++
      "\t-- If all else failed, sort by something reasonable and deterministic.\n" ++
      "\trepo_name DESC,\n" ++
      "\ttags DESC,\n" ++
      "\tid DESC\n" ++
      "LIMIT "),
  .verb,
  .text (" -- Maximum results we\x27ll actually return.\n")]

/-- The call `strings.ReplaceAll(documentationSearchQuery, "$SUFFIX", tableSuffix)`: the
format string given to `sqlf.Sprintf`. -/
def replaceSuffix (tableSuffix : String) (pieces : List Piece) : List Char :=
  (pieces.map (fun p =>
    match p with
    | .text s => s.data
    | .suffix => tableSuffix.data
    | .verb => ['%', 's'])).flatten

/-- The arguments that `sqlf.Sprintf`, through `fmt.Sprintf`, gives to the verbs of a format,
in the order of the verbs: each verb takes the next argument, and `none` stands for
`%!s(MISSING)` when the arguments are used up.  `%%` is a literal percent sign.  A `%`
followed by any other character is read as a verb taking one argument: the flags, widths and
argument indexes of package `fmt` are left out. -/
def bindVerbs : List Char → List SprintfArg → List (Option SprintfArg)
  | [], _ => []
  | [_], _ => []
  | c :: d :: rest, args =>
    if c = '%' then
      if d = '%' then bindVerbs rest args
      else
        match args with
        | [] => none :: bindVerbs rest []
        | arg :: args => some arg :: bindVerbs rest args
    else bindVerbs (d :: rest) args

/-- The argument bound to the verb of the outer `LIMIT %s`, the last verb of the format. -/
def limitParameter (format : List Char) (args : List SprintfArg) : Option SprintfArg :=
  (bindVerbs format args).getLast?.join

/-- One row of the result of the search query; the four rank columns, which the scan reads
and drops, are left out. -/
structure SearchRow where
  ID : Int
  RepoID : Int
  PathID : String
  Detail : String
  SearchKey : String
  Label : String
  Lang : String
  RepoName : String
  Tags : String
deriving DecidableEq, Repr

/-- The fields of `precise.DocumentationSearchResult` that the scan fills. -/
structure DocumentationSearchResult where
  ID : Int
  RepoID : Int
  PathID : String
  Detail : String
  SearchKey : String
  Label : String
  Lang : String
  RepoName : String
  Tags : List String
deriving DecidableEq, Repr

/-- The call `s.Store.Query` on the search query.  `candidates format args` stands for the
rows of the query without its outer `LIMIT`, in the order of its `ORDER BY`, or the error of
the database; the outer `LIMIT n` keeps the first `n` of them.  A query whose `LIMIT` has no
integer argument is rejected. -/
def searchQuery (candidates : List Char → List SprintfArg → Except String (List SearchRow))
    (format : List Char) (args : List SprintfArg) : Except String (List SearchRow) :=
  match limitParameter format args with
  | some (.value (.int n)) =>
    match candidates format args with
    | .error queryErr => .error queryErr
    | .ok rows => .ok (rows.take n.toNat)
  | _ => .error "syntax error in LIMIT"

/-- Embeds `scanDocumentationSearchResults`: one result per row, the tags split into
fields. -/
def scanDocumentationSearchResults (rows : Except String (List SearchRow)) :
    Except String (List DocumentationSearchResult) :=
  match rows with
  | .error queryErr => .error queryErr
  | .ok rows =>
    .ok (rows.foldl (fun results row =>
      results ++ [{ ID := row.ID, RepoID := row.RepoID, PathID := row.PathID,
                    Detail := row.Detail, SearchKey := row.SearchKey, Label := row.Label,
                    Lang := row.Lang, RepoName := row.RepoName, Tags := fields row.Tags }]) [])

/-- The arguments `DocumentationSearch` gives to `sqlf.Sprintf`, in order; `reverse` is
declared outside the given sources. -/
def searchArgs (lexemes : String → List String) (reverse : String → String)
    (query : String) : List SprintfArg :=
  let metaQuery := (splitQuery query).1
  let mainQuery := (splitQuery query).2
  let subStringMatches := true
  let langRepoTagsClause := textSearchQuery lexemes "tsv" metaQuery subStringMatches
  let primaryClauses := [
    textSearchQuery lexemes "search_key_tsv" mainQuery subStringMatches,
    textSearchQuery lexemes "search_key_reverse_tsv" (reverse mainQuery) subStringMatches,
    textSearchQuery lexemes "label_tsv" mainQuery subStringMatches,
    textSearchQuery lexemes "label_reverse_tsv" (reverse mainQuery) subStringMatches]
  [ .query langRepoTagsClause,
    .query langRepoTagsClause,
    .query langRepoTagsClause,
    .query (textSearchRank lexemes "search_key_tsv" mainQuery subStringMatches),
    .query (textSearchRank lexemes "search_key_reverse_tsv" (reverse mainQuery) subStringMatches),
    .query (textSearchRank lexemes "label_tsv" mainQuery subStringMatches),
    .query (textSearchRank lexemes "label_reverse_tsv" (reverse mainQuery) subStringMatches),
    .query (sqlfJoin primaryClauses " OR "),
    .value (.int 50) ]

/-- Embeds `DocumentationSearch`; the list of repositories is only logged. -/
def DocumentationSearch (candidates : List Char → List SprintfArg → Except String (List SearchRow))
    (lexemes : String → List String) (reverse : String → String)
    (tableSuffix query : String) (repos : List String) :
    Except String (List DocumentationSearchResult) :=
  let _ := repos
  scanDocumentationSearchResults
    (searchQuery candidates (replaceSuffix tableSuffix documentationSearchQuery)
      (searchArgs lexemes reverse query))

/-- A piece that brings no `%` into the format: a text without `%`; the verbs and the table
suffix are counted apart. -/
def percentFree : Piece → Bool
  | .text s => !(s.data.contains '%')
  | _ => true

/-- The number of verbs `%s` of a list of pieces. -/
def verbCount (pieces : List Piece) : Nat :=
  (pieces.filter (fun p => decide (p = .verb))).length

/-- The bindings of `n` verbs in a row: each takes the next argument, `none` when the
arguments are used up. -/
def takeArgs : Nat → List SprintfArg → List (Option SprintfArg)
  | 0, _ => []
  | n + 1, [] => none :: takeArgs n []
  | n + 1, arg :: args => some arg :: takeArgs n args

end Lsifstore

namespace Migrations

/-! ## Identifiers of migrations -/

/-- The call `strconv.Atoi(s)`: an optional sign, then decimal digits read as an unsigned
64-bit number, which has to fit a signed 64-bit integer. -/
def atoi (s : String) : Except Lsifstore.NumError Int :=
  if s = "" then .error (.invalidSyntax s)
  else
    let neg := decide (s.data.head? = some '-')
    let digits := if s.data.head? = some '+' ∨ s.data.head? = some '-' then s.data.tail else s.data
    if digits = [] then .error (.invalidSyntax s)
    else
      match Lsifstore.parseUintLoop s digits 0 with
      | .error (.invalidSyntax _) => .error (.invalidSyntax s)
      | .error (.outOfRange _) => .error (.outOfRange s)
      | .ok un =>
        if !neg && decide (un ≥ 2 ^ 63) then .error (.outOfRange s)
        else if neg && decide (un > 2 ^ 63) then .error (.outOfRange s)
        else .ok (if neg then -(un : Int) else (un : Int))

/-- The ways a run of the test stops early: `t.Fatal`, or a panic of the runtime. -/
inductive TestAbort where
  | fatal (msg : String)
  | panicked
deriving DecidableEq, Repr

/-- The errors the test reports with `t.Errorf`. -/
inductive IDError where
  | multiple (id : Int) (names : List String)
  | gap (before after : String)
deriving DecidableEq, Repr

/-- The expression `strconv.Atoi(name[:strings.IndexByte(name, '_')])` of the test.  Without
`_` the index is `-1` and the slice expression panics; a prefix that is no integer makes the
test call `t.Fatalf`. -/
def migrationID (name : String) : Except TestAbort Int :=
  if '_' ∈ name.data then
    match atoi (String.mk (name.data.take (name.data.indexOf '_'))) with
    | .error _ => .error (.fatal ("failed to parse name " ++ name))
    | .ok id => .ok id
  else
    .error .panicked

/-- The statement `byID[id] = append(byID[id], name)` on the Go map `byID`, kept as the list
of its bindings. -/
def byIDAppend (byID : List (Int × List String)) (id : Int) (name : String) :
    List (Int × List String) :=
  if byID.any (fun kv => kv.1 == id) then
    byID.map (fun kv => if kv.1 == id then (kv.1, kv.2 ++ [name]) else kv)
  else
    byID ++ [(id, [name])]

/-- The first loop of the test: the names grouped by ID, or the first failure. -/
def collectByID : List String → List (Int × List String) →
    Except TestAbort (List (Int × List String))
  | [], byID => .ok byID
  | name :: ups, byID =>
    match migrationID name with
    | .error abort => .error abort
    | .ok id => collectByID ups (byIDAppend byID id name)

/-- The call `sort.Ints(ids)`. -/
def sortInts (ids : List Int) : List Int :=
  ids.insertionSort (fun a b => a ≤ b)

/-- The expression `byID[id][0]`. -/
def firstName (byID : List (Int × List String)) (id : Int) : String :=
  ((byID.lookup id).getD []).headD ""

/-- The last loop of the test: one error for each `ids[i-1]+1 != id`; the sum is a Go
`int`. -/
def gapErrors (byID : List (Int × List String)) : List Int → List IDError
  | a :: b :: ids =>
    (if Dbstore.wrapInt64 (a + 1) ≠ b then [IDError.gap (firstName byID a) (firstName byID b)]
      else []) ++ gapErrors byID (b :: ids)
  | _ => []

/-- Embeds the body of `TestIDConstraints` for one set of migrations, given the names
`fs.Glob` returns: the errors reported, or the early stop. -/
def TestIDConstraints (ups : List String) : Except TestAbort (List IDError) :=
  if ups.length = 0 then
    .error (.fatal "no up migrations found")
  else
    match collectByID ups [] with
    | .error abort => .error abort
    | .ok byID =>
      .ok (byID.filterMap (fun kv =>
            if kv.2.length > 1 then some (IDError.multiple kv.1 kv.2) else none) ++
          gapErrors byID (sortInts (byID.map Prod.fst)))

/-- The grouping of the first loop on names whose IDs are known. -/
def groupByID (pairs : List (Int × String)) (byID : List (Int × List String)) :
    List (Int × List String) :=
  pairs.foldl (fun byID p => byIDAppend byID p.1 p.2) byID

/-- The invariant of the first loop: `byID` has one binding per ID seen, with as many names
as the ID was seen. -/
structure Grouped (byID : List (Int × List String)) (seen : List Int) : Prop where
  nodup : (byID.map Prod.fst).Nodup
  count : ∀ kv ∈ byID, kv.2.length = seen.count kv.1
  mem : ∀ id, id ∈ byID.map Prod.fst ↔ id ∈ seen

end Migrations

/-! Theorems. -/

namespace Dbstore

/-! ## Lemmas on the tip table -/

theorem mem_orderByInt (ids : List Int) (x : Int) : x ∈ orderByInt ids ↔ x ∈ ids := by
  unfold orderByInt
  exact (List.perm_insertionSort _ ids).mem_iff

theorem mem_getUploadsVisibleAtTip (db : TipTable) (repo x : Int) :
    x ∈ getUploadsVisibleAtTip db repo ↔
      ∃ r ∈ db, r.RepositoryID = repo ∧ r.IsDefaultBranch = true ∧ r.UploadID = x := by
  unfold getUploadsVisibleAtTip
  rw [mem_orderByInt]
  simp [List.mem_map, List.mem_filter, and_assoc]

theorem mem_getProtectedUploads (db : TipTable) (repo x : Int) :
    x ∈ getProtectedUploads db repo ↔ ∃ r ∈ db, r.RepositoryID = repo ∧ r.UploadID = x := by
  unfold getProtectedUploads
  rw [mem_orderByInt, List.mem_dedup]
  simp [List.mem_map, List.mem_filter, and_assoc]

/-- C1: for every content of `lsif_uploads_visible_at_tip` and every repository, every upload
ID returned by `getUploadsVisibleAtTip` is returned by `getProtectedUploads`. -/
theorem visibleAtTip_subset_protected (db : TipTable) (repositoryID : Int) :
    getUploadsVisibleAtTip db repositoryID ⊆ getProtectedUploads db repositoryID := by
  intro x hx
  rw [mem_getUploadsVisibleAtTip] at hx
  rw [mem_getProtectedUploads]
  obtain ⟨r, hr, hrepo, _, hid⟩ := hx
  exact ⟨r, hr, hrepo, hid⟩

/-- C8: starting from a table with no row of the repository, for every `id` of `ids`:
`insertVisibleAtTip` succeeds and afterwards `id` is returned by both `getUploadsVisibleAtTip`
and `getProtectedUploads`; `insertVisibleAtTipNonDefaultBranch` succeeds and afterwards `id`
is returned by `getProtectedUploads` while `getUploadsVisibleAtTip` returns nothing of `ids`. -/
theorem insertVisibleAtTip_marks (db : TipTable) (repositoryID : Int) (ids : List Int) (id : Int)
    (hfresh : ∀ r ∈ db, r.RepositoryID ≠ repositoryID) (hid : id ∈ ids) :
    (∃ db1, insertVisibleAtTip db repositoryID ids = .ok db1 ∧
        id ∈ getUploadsVisibleAtTip db1 repositoryID ∧
        id ∈ getProtectedUploads db1 repositoryID) ∧
    (∃ db2, insertVisibleAtTipNonDefaultBranch db repositoryID ids = .ok db2 ∧
        id ∈ getProtectedUploads db2 repositoryID ∧
        ∀ x ∈ ids, x ∉ getUploadsVisibleAtTip db2 repositoryID) := by
  have hne : ids ≠ [] := List.ne_nil_of_mem hid
  constructor
  · refine ⟨db ++ ids.map (fun u => TipMark.mk repositoryID u true), ?_, ?_, ?_⟩
    · simp [insertVisibleAtTip, insertVisibleAtTipInternal, hne]
    · rw [mem_getUploadsVisibleAtTip]
      exact ⟨⟨repositoryID, id, true⟩, by simp [hid], rfl, rfl, rfl⟩
    · rw [mem_getProtectedUploads]
      exact ⟨⟨repositoryID, id, true⟩, by simp [hid], rfl, rfl⟩
  · refine ⟨db ++ ids.map (fun u => TipMark.mk repositoryID u false), ?_, ?_, ?_⟩
    · simp [insertVisibleAtTipNonDefaultBranch, insertVisibleAtTipInternal, hne]
    · rw [mem_getProtectedUploads]
      exact ⟨⟨repositoryID, id, false⟩, by simp [hid], rfl, rfl⟩
    · intro x _ hx
      rw [mem_getUploadsVisibleAtTip] at hx
      obtain ⟨r, hr, hrepo, hdef, _⟩ := hx
      rcases List.mem_append.mp hr with h | h
      · exact hfresh r h hrepo
      · obtain ⟨u, _, rfl⟩ := List.mem_map.mp h
        simp at hdef

/-- C8, at a concrete table: repository 50 has no row, uploads 3 and 1 are inserted. -/
theorem insertVisibleAtTip_marks_witness :
    (∃ db1, insertVisibleAtTip [⟨42, 7, true⟩] 50 [3, 1] = .ok db1 ∧
        (3 : Int) ∈ getUploadsVisibleAtTip db1 50 ∧ (3 : Int) ∈ getProtectedUploads db1 50) ∧
    (∃ db2, insertVisibleAtTipNonDefaultBranch [⟨42, 7, true⟩] 50 [3, 1] = .ok db2 ∧
        (3 : Int) ∈ getProtectedUploads db2 50 ∧
        ∀ x ∈ [(3 : Int), 1], x ∉ getUploadsVisibleAtTip db2 50) :=
  insertVisibleAtTip_marks [⟨42, 7, true⟩] 50 [3, 1] 3 (by decide) (by decide)


/-! ## Commit identifiers -/

theorem isHexDigit_digitChar (d : Nat) (hd : d < 10) : isHexDigit (Nat.digitChar d) = true := by
  interval_cases d <;> decide

theorem toDigitsCore_all_hex (fuel : Nat) :
    ∀ (n : Nat) (acc : List Char), (∀ c ∈ acc, isHexDigit c = true) →
      ∀ c ∈ Nat.toDigitsCore 10 fuel n acc, isHexDigit c = true := by
  induction fuel with
  | zero => intro n acc hacc c hc; exact hacc c (by simpa [Nat.toDigitsCore] using hc)
  | succ fuel ih =>
    intro n acc hacc c hc
    have hhead : ∀ x ∈ Nat.digitChar (n % 10) :: acc, isHexDigit x = true := by
      intro x hx
      rcases List.mem_cons.mp hx with rfl | hx
      · exact isHexDigit_digitChar _ (Nat.mod_lt _ (by decide))
      · exact hacc x hx
    simp only [Nat.toDigitsCore] at hc
    split at hc
    · exact hhead c hc
    · exact ih _ _ hhead c hc

theorem toDigits_all_hex (n : Nat) : ∀ c ∈ Nat.toDigits 10 n, isHexDigit c = true :=
  toDigitsCore_all_hex (n + 1) n [] (by simp)

theorem toDigits_length_le (n e : Nat) (hlt : n < 10 ^ e) (he : 0 < e) :
    (Nat.toDigits 10 n).length ≤ e :=
  Nat.toDigitsCore_length 10 (by decide) (n + 1) n e hlt he

/-- C7, at the failing input: `makeCommit(-1)` is a string of 40 characters whose first
character is the sign, which is not a hexadecimal digit, so it is not the commit hash that
the comment of `makeCommit` promises. -/
theorem makeCommit_neg_one_not_commitID :
    makeCommit (-1) = "-000000000000000000000000000000000000001" ∧
      isCommitID (makeCommit (-1)) = false := by
  decide

/-- On the non-negative Go integers, `i` below `2^63`, `makeCommit i` is a string of exactly
40 characters, each a hexadecimal digit. -/
theorem makeCommit_isCommitID (i : Int) (h0 : 0 ≤ i) (hmax : i < 2 ^ 63) :
    isCommitID (makeCommit i) = true := by
  obtain ⟨n, rfl⟩ := Int.eq_ofNat_of_zero_le h0
  have hn : n < 10 ^ 40 := by
    have : (n : Int) < 10 ^ 40 := lt_of_lt_of_le hmax (by norm_num)
    exact_mod_cast this
  have hlen := toDigits_length_le n 40 hn (by decide)
  have hneg : ¬ ((n : Int) < 0) := by omega
  simp only [isCommitID, makeCommit, sprintfZeroPaddedInt, hneg, if_false, Int.natAbs_ofNat,
    Bool.and_eq_true, decide_eq_true_eq, List.length_append, List.length_replicate,
    List.all_eq_true]
  refine ⟨by omega, ?_⟩
  intro c hc
  rcases List.mem_append.mp hc with h | h
  · rw [(List.mem_replicate.mp h).2]; decide
  · exact toDigits_all_hex n c h

/-- The commit identifier of `i = 42` is well formed. -/
theorem makeCommit_isCommitID_witness :
    (0 : Int) ≤ 42 ∧ (42 : Int) < 2 ^ 63 ∧ isCommitID (makeCommit 42) = true :=
  ⟨by decide, by decide, makeCommit_isCommitID 42 (by decide) (by decide)⟩

/-! ## The commit graph view -/

theorem foldl_append_singleton {α β : Type} (f : α → β) (l : List α) (acc : List β) :
    l.foldl (fun v u => v ++ [f u]) acc = acc ++ l.map f := by
  induction l generalizing acc with
  | nil => simp
  | cons u l ih => simp [ih]

theorem toCommitGraphView_eq_map (uploads : List Upload) :
    toCommitGraphView NewCommitGraphView CommitGraphView.Add uploads =
      uploads.map registrationOf := by
  have h := foldl_append_singleton registrationOf uploads []
  simpa [toCommitGraphView, NewCommitGraphView, CommitGraphView.Add, registrationOf] using h

/-- C2: for every list of uploads, `toCommitGraphView` is the sequence of calls
`Add(UploadMeta{UploadID: upload.ID, Distance: 0}, upload.Commit, "<root>:<indexer>")`, one
per upload in list order, whatever the view and its `Add`; on the view that keeps its
registrations, the result is exactly one registration per upload, in list order. -/
theorem toCommitGraphView_one_add_per_upload (uploads : List Upload) :
    (∀ (V : Type) (newView : V) (add : V → UploadMeta → String → String → V),
      toCommitGraphView newView add uploads =
        (uploads.map (fun u =>
            ({ Meta := { UploadID := u.ID, Distance := 0 }
               Commit := u.Commit
               Token := u.Root ++ ":" ++ u.Indexer } : Registration))).foldl
          (fun view r => add view r.Meta r.Commit r.Token) newView) ∧
    toCommitGraphView NewCommitGraphView CommitGraphView.Add uploads =
      uploads.map (fun u =>
        ({ Meta := { UploadID := u.ID, Distance := 0 }
           Commit := u.Commit
           Token := u.Root ++ ":" ++ u.Indexer } : Registration)) := by
  refine ⟨?_, ?_⟩
  · intro V newView add
    simp [toCommitGraphView, List.foldl_map, slotToken]
  · exact toCommitGraphView_eq_map uploads

/-! ## Slot tokens -/

theorem append_colon_inj (a b c d : List Char)
    (h : (':' ∉ a ∧ ':' ∉ c) ∨ (':' ∉ b ∧ ':' ∉ d))
    (heq : a ++ ':' :: b = c ++ ':' :: d) : a = c ∧ b = d := by
  rcases List.append_eq_append_iff.mp heq with ⟨t, hc, hb⟩ | ⟨t, ha, hd⟩
  · cases t with
    | nil => simp at hc hb; exact ⟨hc.symm, hb⟩
    | cons x t =>
      simp only [List.cons_append, List.cons.injEq] at hb
      obtain ⟨rfl, hb⟩ := hb
      rcases h with ⟨_, h⟩ | ⟨h, _⟩
      · exact absurd (by simp [hc]) h
      · exact absurd (by simp [hb]) h
  · cases t with
    | nil => simp at ha hd; exact ⟨ha, hd.symm⟩
    | cons x t =>
      simp only [List.cons_append, List.cons.injEq] at hd
      obtain ⟨rfl, hd⟩ := hd
      rcases h with ⟨h, _⟩ | ⟨_, h⟩
      · exact absurd (by simp [ha]) h
      · exact absurd (by simp [hd]) h

theorem slotToken_data (root indexer : String) :
    (slotToken root indexer).data = root.data ++ ':' :: indexer.data := by
  simp [slotToken, String.data_append]

/-- C3, counterexample: the slots (root `a:b`, indexer `c`) and (root `a`, indexer `b:c`)
differ and have the same token `a:b:c`. -/
theorem slotToken_not_injective :
    slotToken "a:b" "c" = slotToken "a" "b:c" ∧ ¬ ("a:b" = "a" ∧ "c" = "b:c") := by
  decide

/-- C3, amended: for every two uploads `u` and `v` whose roots contain no `:`, or whose
indexers contain no `:`, the token of `u` equals the token of `v` if and only if
`u.Root = v.Root` and `u.Indexer = v.Indexer`. -/
theorem slotToken_eq_iff (u v : Upload)
    (h : (':' ∉ u.Root.data ∧ ':' ∉ v.Root.data) ∨
      (':' ∉ u.Indexer.data ∧ ':' ∉ v.Indexer.data)) :
    slotToken u.Root u.Indexer = slotToken v.Root v.Indexer ↔
      u.Root = v.Root ∧ u.Indexer = v.Indexer := by
  constructor
  · intro heq
    have hd := congrArg String.data heq
    rw [slotToken_data, slotToken_data] at hd
    obtain ⟨h1, h2⟩ := append_colon_inj _ _ _ _ h hd
    exact ⟨String.ext h1, String.ext h2⟩
  · rintro ⟨h1, h2⟩
    rw [h1, h2]

/-- C3, amended, at two uploads of the slot (root `cmd/`, indexer `lsif-go`). -/
theorem slotToken_eq_iff_witness :
    ((':' ∉ "cmd/".data ∧ ':' ∉ "cmd/".data) ∨ (':' ∉ "lsif-go".data ∧ ':' ∉ "lsif-go".data)) ∧
    (slotToken "cmd/" "lsif-go" = slotToken "cmd/" "lsif-go" ↔
      "cmd/" = "cmd/" ∧ "lsif-go" = "lsif-go") :=
  ⟨by decide,
   slotToken_eq_iff ⟨1, "c1", "cmd/", "completed", 50, "r", "lsif-go"⟩
     ⟨2, "c2", "cmd/", "queued", 50, "r", "lsif-go"⟩ (by decide)⟩

/-! ## Upload states -/

/-- C4, counterexample: the view built from a single upload in state `queued` holds the
registration of that upload, although no upload of the list is `completed`. -/
theorem toCommitGraphView_registers_queued :
    ¬ ∀ uploads : List Upload,
        ∀ r ∈ toCommitGraphView NewCommitGraphView CommitGraphView.Add uploads,
          ∃ u ∈ uploads, u.State = "completed" ∧ r = registrationOf u := by
  intro h
  have h1 := h [⟨1, "c1", "", "queued", 50, "r", "lsif-go"⟩]
    ⟨⟨1, 0⟩, "c1", ":lsif-go"⟩ (by decide)
  revert h1
  decide

/-- C4, amended: `toCommitGraphView` does not read `State`: for every list of uploads the
view is the same after any change of the states (whatever the view and its `Add`), it has
one registration per upload of the list, and every upload of the list is registered,
whatever its state. -/
theorem toCommitGraphView_ignores_state (uploads : List Upload) (state : Upload → String) :
    (∀ (V : Type) (newView : V) (add : V → UploadMeta → String → String → V),
      toCommitGraphView newView add (uploads.map (fun u => { u with State := state u })) =
        toCommitGraphView newView add uploads) ∧
    (toCommitGraphView NewCommitGraphView CommitGraphView.Add uploads).length = uploads.length ∧
    ∀ u ∈ uploads,
      registrationOf u ∈ toCommitGraphView NewCommitGraphView CommitGraphView.Add uploads := by
  refine ⟨?_, ?_, ?_⟩
  · intro V newView add
    simp [toCommitGraphView, List.foldl_map]
  · rw [toCommitGraphView_eq_map]; simp
  · intro u hu
    rw [toCommitGraphView_eq_map]
    exact List.mem_map_of_mem _ hu

/-- C4, amended, at a list with a queued and an errored upload. -/
theorem toCommitGraphView_ignores_state_witness :
    registrationOf ⟨1, "c1", "", "queued", 50, "r", "lsif-go"⟩ ∈
      toCommitGraphView NewCommitGraphView CommitGraphView.Add
        [⟨1, "c1", "", "queued", 50, "r", "lsif-go"⟩, ⟨2, "c2", "", "errored", 50, "r", "lsif-go"⟩] :=
  (toCommitGraphView_ignores_state
    [⟨1, "c1", "", "queued", 50, "r", "lsif-go"⟩, ⟨2, "c2", "", "errored", 50, "r", "lsif-go"⟩]
    (fun _ => "completed")).2.2 _ (by decide)

end Dbstore

namespace Lsifstore

/-! ## `documentationIDsToPathIDs` -/

theorem collectWantIDs_filter (ids : List String) :
    ∀ acc : List Nat,
      collectWantIDs ids acc = collectWantIDs (ids.filter (fun id => decide (id ≠ ""))) acc := by
  induction ids with
  | nil => intro acc; rfl
  | cons id ids ih =>
    intro acc
    by_cases hid : id = ""
    · simp [collectWantIDs, hid, ih acc]
    · simp only [collectWantIDs, hid, ne_eq, not_false_eq_true, if_true, decide_True,
        List.filter_cons_of_pos]
      cases parseUint id with
      | error err => rfl
      | ok idInt => exact ih _

theorem collectWantIDs_all_empty (ids : List String) (h : ∀ id ∈ ids, id = "") :
    ∀ acc : List Nat, collectWantIDs ids acc = .ok acc := by
  induction ids with
  | nil => intro acc; rfl
  | cons id ids ih =>
    intro acc
    have hid : id = "" := h id (List.mem_cons_self _ _)
    simp [collectWantIDs, hid, ih (fun x hx => h x (List.mem_cons_of_mem _ hx)) acc]

theorem collectWantIDs_mem (ids : List String) :
    ∀ (acc want : List Nat), collectWantIDs ids acc = .ok want →
      ∀ n, n ∈ want ↔ n ∈ acc ∨ ∃ id ∈ ids, id ≠ "" ∧ parseUint id = .ok n := by
  induction ids with
  | nil =>
    intro acc want h n
    simp only [collectWantIDs, Except.ok.injEq] at h
    simp [h]
  | cons id ids ih =>
    intro acc want h n
    by_cases hid : id = ""
    · simp only [collectWantIDs, hid, ne_eq, not_true_eq_false, if_false] at h
      rw [ih acc want h n]
      simp [hid]
    · simp only [collectWantIDs, hid, ne_eq, not_false_eq_true, if_true] at h
      cases hp : parseUint id with
      | error err => simp [hp] at h
      | ok idInt =>
        simp only [hp] at h
        rw [ih _ want h n]
        simp only [List.mem_append, List.mem_singleton, List.mem_cons, exists_eq_or_imp, hp,
          Except.ok.injEq, ne_eq, hid, not_false_eq_true, true_and]
        simp only [List.not_mem_nil, or_false, eq_comm (a := idInt)]
        tauto

theorem mem_mapKeys_mapSet (values : PathIDMap) (key pathID k : String) :
    k ∈ mapKeys (mapSet values key pathID) ↔ k ∈ mapKeys values ∨ k = key := by
  unfold mapSet mapKeys
  split
  · rename_i hany
    simp only [List.any_eq_true, beq_iff_eq] at hany
    obtain ⟨kv, hkv, hkey⟩ := hany
    simp only [List.map_map, List.mem_map, Function.comp_apply, beq_iff_eq]
    constructor
    · rintro ⟨a, ha, rfl⟩
      by_cases h : a.1 = key
      · right; simp [h]
      · left; exact ⟨a, ha, by simp [h]⟩
    · rintro (⟨a, ha, rfl⟩ | rfl)
      · by_cases h : a.1 = key
        · exact ⟨a, ha, by simp [h]⟩
        · exact ⟨a, ha, by simp [h]⟩
      · exact ⟨kv, hkv, by simp [hkey]⟩
  · simp

theorem mem_mapKeys_foldl (rows : List (Nat × String)) :
    ∀ (values : PathIDMap) (k : String),
      k ∈ mapKeys (rows.foldl (fun values row => mapSet values (formatUint row.1) row.2) values) ↔
        k ∈ mapKeys values ∨ ∃ row ∈ rows, k = formatUint row.1 := by
  induction rows with
  | nil => intro values k; simp
  | cons row rows ih =>
    intro values k
    simp only [List.foldl_cons, ih, mem_mapKeys_mapSet, List.mem_cons, exists_eq_or_imp]
    tauto

/-- C9: for every store, bundle and list of IDs, `documentationIDsToPathIDs` returns the same
result, and runs the same queries, as on the list with every `""` removed; when every ID of
the list is `""` (so also on the empty list) it returns the nil map and no error, and runs no
query. -/
theorem documentationIDsToPathIDs_ignores_empty
    (query : Int → List Nat → Except String (List (Nat × String))) (bundleID : Int)
    (ids : List String) :
    documentationIDsToPathIDs query bundleID ids =
        documentationIDsToPathIDs query bundleID (ids.filter (fun id => decide (id ≠ ""))) ∧
      ((∀ id ∈ ids, id = "") →
        documentationIDsToPathIDs query bundleID ids = (.ok none, [])) := by
  constructor
  · unfold documentationIDsToPathIDs
    rw [collectWantIDs_filter ids []]
  · intro h
    unfold documentationIDsToPathIDs
    rw [collectWantIDs_all_empty ids h []]
    rfl

/-- C9, at the lists `["", "7", ""]` and `["", ""]`, on a store with one row. -/
theorem documentationIDsToPathIDs_ignores_empty_witness :
    documentationIDsToPathIDs (documentationIDsToPathIDsQuery [⟨1, 7, "p", none⟩]) 1 ["", ""] =
      (.ok none, []) :=
  (documentationIDsToPathIDs_ignores_empty (documentationIDsToPathIDsQuery [⟨1, 7, "p", none⟩]) 1
    ["", ""]).2 (by decide)

/-- C10, at the failing input: on the input ID `007`, whose number 7 has a mapping row, the
returned map has the single key `7`, which is not an input ID, and the input ID `007` is not
a key, so the result is not the mapping of the given IDs that the comment of
`documentationIDsToPathIDs` promises. -/
theorem documentationIDsToPathIDs_key_not_input :
    (documentationIDsToPathIDs (documentationIDsToPathIDsQuery [⟨1, 7, "p", none⟩]) 1 ["007"]).1 =
        .ok (some [("7", "p")]) ∧
      parseUint "007" = .ok 7 ∧
      "7" ∈ mapKeys [("7", "p")] ∧ "7" ∉ ["007"] ∧ "007" ∉ mapKeys [("7", "p")] := by
  decide

/-- What the keys are: for every content of the mapping table, bundle and list of IDs on which
`documentationIDsToPathIDs` succeeds, every key of the returned map is the decimal text
(`strconv.FormatUint`) of the number of a non-empty input ID, and for every non-empty input
ID whose number has a mapping row in the bundle, the decimal text of that number is a key.
For an input ID that is the decimal text of its number, the key is the ID itself. -/
theorem documentationIDsToPathIDs_keys (mappings : List MappingRow) (bundleID : Int)
    (ids : List String) (pathIDs : Option PathIDMap)
    (hok : (documentationIDsToPathIDs (documentationIDsToPathIDsQuery mappings) bundleID ids).1 =
      .ok pathIDs) :
    (∀ key ∈ mapKeys (pathIDs.getD []),
      ∃ id ∈ ids, id ≠ "" ∧ ∃ n, parseUint id = .ok n ∧ key = formatUint n) ∧
    (∀ id ∈ ids, id ≠ "" → ∀ n, parseUint id = .ok n →
      (∃ r ∈ mappings, r.DumpID = bundleID ∧ r.ResultID = (n : Int)) →
        formatUint n ∈ mapKeys (pathIDs.getD [])) := by
  unfold documentationIDsToPathIDs at hok
  cases hc : collectWantIDs ids [] with
  | error err => simp [hc] at hok
  | ok wantIDs =>
    have hmem := collectWantIDs_mem ids [] wantIDs hc
    simp only [hc] at hok
    by_cases hlen : wantIDs.length = 0
    · have hnil : wantIDs = [] := List.length_eq_zero.mp hlen
      simp only [hlen, if_true, Except.ok.injEq] at hok
      subst hok
      refine ⟨by simp [mapKeys], ?_⟩
      intro id hid hne n hp _
      have : n ∈ wantIDs := (hmem n).mpr (Or.inr ⟨id, hid, hne, hp⟩)
      simp [hnil] at this
    · simp only [hlen, if_false, scanDocumentationPathIDs, documentationIDsToPathIDsQuery,
        Except.ok.injEq] at hok
      subst hok
      simp only [Option.getD_some]
      constructor
      · intro key hkey
        rw [mem_mapKeys_foldl] at hkey
        rcases hkey with hkey | ⟨row, hrow, rfl⟩
        · simp [mapKeys] at hkey
        · simp only [List.mem_map, List.mem_filter, Bool.and_eq_true, decide_eq_true_eq] at hrow
          obtain ⟨r, ⟨_, _, n, hwant, hn⟩, rfl⟩ := hrow
          have htoNat : r.ResultID.toNat = n := by rw [← hn]; rfl
          rcases (hmem n).mp hwant with h | ⟨id, hid, hne, hp⟩
          · simp at h
          · exact ⟨id, hid, hne, n, hp, by rw [htoNat]⟩
      · intro id hid hne n hp hrow
        obtain ⟨r, hr, hdump, hres⟩ := hrow
        rw [mem_mapKeys_foldl]
        right
        refine ⟨(r.ResultID.toNat, r.PathID), ?_, by simp [hres]⟩
        simp only [List.mem_map, List.mem_filter, Bool.and_eq_true, decide_eq_true_eq]
        refine ⟨r, ⟨hr, hdump, n, ?_, hres.symm⟩, rfl⟩
        exact (hmem n).mpr (Or.inr ⟨id, hid, hne, hp⟩)

/-- The keys at the IDs `["7", "", "012"]` on a table with rows for 7 and 12. -/
theorem documentationIDsToPathIDs_keys_witness :
    (documentationIDsToPathIDs (documentationIDsToPathIDsQuery [⟨1, 7, "p", none⟩, ⟨1, 12, "q", none⟩]) 1
        ["7", "", "012"]).1 = .ok (some [("7", "p"), ("12", "q")]) ∧
    (∀ key ∈ mapKeys [("7", "p"), ("12", "q")],
      ∃ id ∈ ["7", "", "012"], id ≠ "" ∧ ∃ n, parseUint id = .ok n ∧ key = formatUint n) :=
  ⟨by decide,
   (documentationIDsToPathIDs_keys [⟨1, 7, "p", none⟩, ⟨1, 12, "q", none⟩] 1 ["7", "", "012"]
     (some [("7", "p"), ("12", "q")]) (by decide)).1⟩

end Lsifstore

namespace Dbstore

/-! ## Nearest uploads and link compression -/

theorem shiftDistance_shiftDistance (d1 d2 : Nat) (entry : NearestEntry) :
    shiftDistance d2 (shiftDistance d1 entry) = shiftDistance (d1 + d2) entry := by
  simp [shiftDistance, List.map_map, Function.comp_def, Nat.add_assoc]

theorem map_token_shiftDistance (d : Nat) (entry : NearestEntry) :
    (shiftDistance d entry).map (fun r => r.Token) = entry.map (fun r => r.Token) := by
  simp [shiftDistance, List.map_map, Function.comp_def]

theorem insertNearest_of_not_mem (entry : NearestEntry) (cand : Registration)
    (h : cand.Token ∉ entry.map (fun r => r.Token)) :
    insertNearest entry cand = entry ++ [cand] := by
  induction entry with
  | nil => rfl
  | cons e rest ih =>
    simp only [List.map_cons, List.mem_cons, not_or] at h
    have hne : e.Token ≠ cand.Token := fun heq => h.1 heq.symm
    simp [insertNearest, hne, ih h.2]

theorem map_token_insertNearest (entry : NearestEntry) (cand : Registration) :
    (insertNearest entry cand).map (fun r => r.Token) =
      if cand.Token ∈ entry.map (fun r => r.Token) then entry.map (fun r => r.Token)
      else entry.map (fun r => r.Token) ++ [cand.Token] := by
  induction entry with
  | nil => simp [insertNearest]
  | cons e rest ih =>
    by_cases heq : e.Token = cand.Token
    · by_cases hn : nearer cand e = true
      · simp [insertNearest, heq, hn]
      · simp [insertNearest, heq, hn]
    · have hne : ¬ cand.Token = e.Token := fun h => heq h.symm
      simp only [insertNearest, heq, if_false, List.map_cons, ih, List.mem_cons, hne, false_or]
      split <;> simp

theorem nodup_insertNearest (entry : NearestEntry) (cand : Registration)
    (h : (entry.map (fun r => r.Token)).Nodup) :
    ((insertNearest entry cand).map (fun r => r.Token)).Nodup := by
  rw [map_token_insertNearest]
  split
  · exact h
  · rename_i hmem
    exact List.Nodup.append h (List.nodup_singleton _) (by simpa using hmem)

theorem nodup_foldl_insertNearest (cands : List Registration) :
    ∀ entry : NearestEntry, (entry.map (fun r => r.Token)).Nodup →
      ((cands.foldl insertNearest entry).map (fun r => r.Token)).Nodup := by
  induction cands with
  | nil => intro entry h; exact h
  | cons c cands ih => intro entry h; exact ih _ (nodup_insertNearest entry c h)

theorem nodup_nearestPerSlot (cands : List Registration) :
    ((nearestPerSlot cands).map (fun r => r.Token)).Nodup :=
  nodup_foldl_insertNearest cands [] (by simp)

theorem foldl_insertNearest_of_nodup (cands : List Registration) :
    ∀ entry : NearestEntry, ((entry ++ cands).map (fun r => r.Token)).Nodup →
      cands.foldl insertNearest entry = entry ++ cands := by
  induction cands with
  | nil => intro entry _; simp
  | cons c cands ih =>
    intro entry h
    have hc : c.Token ∉ entry.map (fun r => r.Token) := by
      intro hmem
      rw [List.map_append, List.map_cons] at h
      exact (List.nodup_append.mp h).2.2 hmem (List.mem_cons_self _ _)
    rw [List.foldl_cons, insertNearest_of_not_mem entry c hc, ih]
    · simp
    · simpa using h

theorem nearestPerSlot_of_nodup (entry : NearestEntry)
    (h : (entry.map (fun r => r.Token)).Nodup) : nearestPerSlot entry = entry := by
  have := foldl_insertNearest_of_nodup entry [] (by simpa using h)
  simpa [nearestPerSlot] using this

theorem lookup_cons_self {β : Type} (k : String) (v : β) (l : List (String × β)) :
    List.lookup k ((k, v) :: l) = some v := by
  simp [List.lookup]

theorem lookup_cons_of_ne {β : Type} (k k1 : String) (v : β) (l : List (String × β))
    (h : k ≠ k1) : List.lookup k ((k1, v) :: l) = List.lookup k l := by
  have : (k == k1) = false := by simpa using h
  simp [List.lookup, this]

theorem candidatesAt_congr (f g : String → Option NearestEntry) (view : CommitGraphView)
    (node : CommitNode) (h : ∀ p, f p = g p) : candidatesAt f view node = candidatesAt g view node := by
  have : f = g := funext h
  rw [this]

theorem candidatesAt_single (entryOf : String → Option NearestEntry) (view : CommitGraphView)
    (commit p : String) (entry : NearestEntry)
    (hown : (uploadsDefinedAt view commit).isEmpty = true) (hp : entryOf p = some entry) :
    candidatesAt entryOf view ⟨commit, [p]⟩ = shiftDistance 1 entry := by
  have : uploadsDefinedAt view commit = [] := List.isEmpty_iff.mp hown
  simp [candidatesAt, this, hp]

theorem Agree.fresh {index : CompressedIndex} {entries : List (String × NearestEntry)}
    (h : Agree index entries) (c : String) (hc : entries.lookup c = none) :
    index.Links.lookup c = none ∧ index.Entries.lookup c = none := by
  have hr := h.resolve c
  rw [hc] at hr
  unfold resolveNearest at hr
  cases hl : index.Links.lookup c with
  | some link =>
    obtain ⟨⟨e, he⟩, _⟩ := h.target c link hl
    simp [hl, he] at hr
  | none =>
    simp only [hl] at hr
    exact ⟨rfl, hr⟩

theorem Agree.materialize {index : CompressedIndex} {entries : List (String × NearestEntry)}
    (h : Agree index entries) (view : CommitGraphView) (node : CommitNode)
    (hc : entries.lookup node.Commit = none) :
    Agree (materialize view index node) (nearestStep view entries node) := by
  obtain ⟨hl, he⟩ := h.fresh node.Commit hc
  have hcand : candidatesAt (resolveNearest index) view node =
      candidatesAt (fun p => entries.lookup p) view node :=
    candidatesAt_congr _ _ view node h.resolve
  refine ⟨?_, ?_, ?_⟩
  · intro c
    by_cases hcc : c = node.Commit
    · subst hcc
      simp [resolveNearest, Dbstore.materialize, nearestStep, hl, lookup_cons_self, hcand]
    · have hr := h.resolve c
      unfold resolveNearest at hr ⊢
      simp only [Dbstore.materialize, nearestStep, lookup_cons_of_ne _ _ _ _ hcc]
      cases hlc : index.Links.lookup c with
      | some link =>
        obtain ⟨⟨e, hte⟩, _⟩ := h.target c link hlc
        have hne : link.AncestorCommit ≠ node.Commit := by
          intro heq; rw [heq, he] at hte; cases hte
        simp only [hlc] at hr ⊢
        rw [lookup_cons_of_ne _ _ _ _ hne]
        exact hr
      | none =>
        simp only [hlc] at hr ⊢
        exact hr
  · intro c link hlc
    simp only [Dbstore.materialize] at hlc ⊢
    obtain ⟨⟨e, hte⟩, htl⟩ := h.target c link hlc
    have hne : link.AncestorCommit ≠ node.Commit := by
      intro heq; rw [heq, he] at hte; cases hte
    rw [lookup_cons_of_ne _ _ _ _ hne]
    exact ⟨⟨e, hte⟩, htl⟩
  · intro c e hce
    by_cases hcc : c = node.Commit
    · subst hcc
      simp only [nearestStep, lookup_cons_self, Option.some.injEq] at hce
      rw [← hce]
      exact nodup_nearestPerSlot _
    · simp only [nearestStep, lookup_cons_of_ne _ _ _ _ hcc] at hce
      exact h.slots c e hce

theorem Agree.link {index : CompressedIndex} {entries : List (String × NearestEntry)}
    (h : Agree index entries) (view : CommitGraphView) (commit p ancestor : String) (d : Nat)
    (ea : NearestEntry)
    (hc : entries.lookup commit = none)
    (hown : (uploadsDefinedAt view commit).isEmpty = true)
    (hanc : index.Entries.lookup ancestor = some ea)
    (hancl : index.Links.lookup ancestor = none)
    (hp : entries.lookup p = some (shiftDistance d ea)) :
    Agree { index with Links := (commit, { AncestorCommit := ancestor, Distance := d + 1 }) ::
              index.Links }
      (nearestStep view entries ⟨commit, [p]⟩) := by
  obtain ⟨hl, he⟩ := h.fresh commit hc
  have hnew : nearestPerSlot (candidatesAt (fun q => entries.lookup q) view ⟨commit, [p]⟩) =
      shiftDistance (d + 1) ea := by
    rw [candidatesAt_single _ view commit p _ hown hp, shiftDistance_shiftDistance]
    apply nearestPerSlot_of_nodup
    rw [map_token_shiftDistance, ← map_token_shiftDistance d]
    exact h.slots p _ hp
  have hac : ancestor ≠ commit := by
    intro heq; rw [heq, he] at hanc; cases hanc
  refine ⟨?_, ?_, ?_⟩
  · intro c
    by_cases hcc : c = commit
    · subst hcc
      simp [resolveNearest, nearestStep, lookup_cons_self, hanc, hnew]
    · have hr := h.resolve c
      unfold resolveNearest at hr ⊢
      simp only [nearestStep, lookup_cons_of_ne _ _ _ _ hcc]
      exact hr
  · intro c link hlc
    by_cases hcc : c = commit
    · subst hcc
      simp only [lookup_cons_self, Option.some.injEq] at hlc
      subst hlc
      simp only [lookup_cons_of_ne _ _ _ _ hac]
      exact ⟨⟨ea, hanc⟩, hancl⟩
    · simp only [lookup_cons_of_ne _ _ _ _ hcc] at hlc
      obtain ⟨⟨e, hte⟩, htl⟩ := h.target c link hlc
      have hne : link.AncestorCommit ≠ commit := by
        intro heq; rw [heq, he] at hte; cases hte
      simp only [lookup_cons_of_ne _ _ _ _ hne]
      exact ⟨⟨e, hte⟩, htl⟩
  · intro c e hce
    by_cases hcc : c = commit
    · subst hcc
      simp only [nearestStep, lookup_cons_self, Option.some.injEq] at hce
      rw [← hce]
      exact nodup_nearestPerSlot _
    · simp only [nearestStep, lookup_cons_of_ne _ _ _ _ hcc] at hce
      exact h.slots c e hce

theorem shiftDistance_zero (entry : NearestEntry) : shiftDistance 0 entry = entry := by
  simp [shiftDistance]

theorem Agree.step {index : CompressedIndex} {entries : List (String × NearestEntry)}
    (h : Agree index entries) (view : CommitGraphView) (node : CommitNode)
    (hc : entries.lookup node.Commit = none) :
    Agree (compressStep view index node) (nearestStep view entries node) := by
  unfold compressStep
  split
  · rename_i hown
    split
    · rename_i p hparents
      have hnode : node = ⟨node.Commit, [p]⟩ := by
        cases node; simp_all
      split
      · rename_i link hlink
        obtain ⟨⟨ea, hea⟩, hal⟩ := h.target p link hlink
        have hp : entries.lookup p = some (shiftDistance link.Distance ea) := by
          rw [← h.resolve p]
          simp [resolveNearest, hlink, hea]
        rw [hnode]
        exact h.link view node.Commit p link.AncestorCommit link.Distance ea hc hown hea hal hp
      · rename_i hlink
        split
        · rename_i ep hep
          have hp : entries.lookup p = some (shiftDistance 0 ep) := by
            rw [← h.resolve p, shiftDistance_zero]
            simp [resolveNearest, hlink, hep]
          rw [hnode]
          exact h.link view node.Commit p p 0 ep hc hown hep hlink hp
        · exact h.materialize view node hc
    · exact h.materialize view node hc
  · exact h.materialize view node hc

theorem lookup_nearestStep_ne_none (view : CommitGraphView)
    (entries : List (String × NearestEntry)) (node : CommitNode) (c : String) :
    (nearestStep view entries node).lookup c ≠ none ↔
      c = node.Commit ∨ entries.lookup c ≠ none := by
  by_cases hcc : c = node.Commit
  · subst hcc; simp [nearestStep, lookup_cons_self]
  · simp [nearestStep, lookup_cons_of_ne _ _ _ _ hcc, hcc]

theorem agree_foldl (view : CommitGraphView) (graph : List CommitNode) :
    ∀ (index : CompressedIndex) (entries : List (String × NearestEntry)),
      Agree index entries →
      (graph.map (fun n => n.Commit)).Nodup →
      (∀ n ∈ graph, entries.lookup n.Commit = none) →
      Agree (graph.foldl (compressStep view) index) (graph.foldl (nearestStep view) entries) := by
  induction graph with
  | nil => intro index entries h _ _; exact h
  | cons node graph ih =>
    intro index entries h hnodup hfresh
    simp only [List.map_cons, List.nodup_cons] at hnodup
    simp only [List.foldl_cons]
    apply ih _ _ (h.step view node (hfresh node (List.mem_cons_self _ _))) hnodup.2
    intro n hn
    by_contra hcon
    rcases (lookup_nearestStep_ne_none view entries node n.Commit).mp hcon with heq | hne
    · exact hnodup.1 (heq ▸ List.mem_map_of_mem (fun n => n.Commit) hn)
    · exact hne (hfresh n (List.mem_cons_of_mem _ hn))

theorem agree_empty : Agree { Entries := [], Links := [] } [] :=
  ⟨fun _ => rfl, fun _ _ h => by simp at h, fun _ _ h => by simp at h⟩

theorem agree_compress (view : CommitGraphView) (graph : List CommitNode)
    (hnodup : (graph.map (fun n => n.Commit)).Nodup) :
    Agree (compressNearestEntries view graph) (calculateNearestEntries view graph) :=
  agree_foldl view graph _ _ agree_empty hnodup (fun _ _ => rfl)

theorem lookup_foldl_nearestStep (view : CommitGraphView) (graph : List CommitNode) :
    ∀ (entries : List (String × NearestEntry)) (c : String),
      (c ∈ graph.map (fun n => n.Commit) ∨ entries.lookup c ≠ none) →
      (graph.foldl (nearestStep view) entries).lookup c ≠ none := by
  induction graph with
  | nil => intro entries c h; simpa using h
  | cons node graph ih =>
    intro entries c h
    simp only [List.foldl_cons]
    apply ih
    rw [lookup_nearestStep_ne_none]
    simp only [List.map_cons, List.mem_cons] at h
    tauto


/-! ## Rows of the compressed index -/

theorem setDistance_shift (m : List (Int × Nat)) (uploadID : Int) (distance d : Nat) :
    setDistance (m.map (fun kv => (kv.1, kv.2 + d))) uploadID (distance + d) =
      (setDistance m uploadID distance).map (fun kv => (kv.1, kv.2 + d)) := by
  unfold setDistance
  simp only [List.any_map, Function.comp_def]
  split
  · simp only [List.map_map, Function.comp_def]
    apply List.map_congr_left
    intro kv _
    by_cases h : kv.1 = uploadID <;> simp [h]
  · simp

theorem foldl_setDistance_shift (d : Nat) (metas : List UploadMeta) :
    ∀ m : List (Int × Nat),
      metas.foldl (fun m u => setDistance m u.UploadID (u.Distance + d))
          (m.map (fun kv => (kv.1, kv.2 + d))) =
        (metas.foldl (fun m u => setDistance m u.UploadID u.Distance) m).map
          (fun kv => (kv.1, kv.2 + d)) := by
  induction metas with
  | nil => intro m; rfl
  | cons u metas ih =>
    intro m
    simp only [List.foldl_cons, setDistance_shift, ih]

theorem uploadsByLength_shiftDistance (d : Nat) (entry : NearestEntry) :
    uploadsByLength ((shiftDistance d entry).map (fun r => r.Meta)) =
      (uploadsByLength (entry.map (fun r => r.Meta))).map (fun kv => (kv.1, kv.2 + d)) := by
  have h := foldl_setDistance_shift d (entry.map (fun r => r.Meta)) []
  simp only [List.map_nil] at h
  unfold uploadsByLength
  rw [← h]
  simp [shiftDistance, List.foldl_map]

theorem find_nearest_rows (repositoryID : Int) (commit : String)
    (uploads : List (String × List UploadMeta)) :
    ((uploads.map (fun cu => NearestUploadsRow.mk repositoryID cu.1 (uploadsByLength cu.2))).find?
        (fun r => decide (r.RepositoryID = repositoryID) && decide (r.Commit = commit))).map
      (fun r => r.Uploads) = (uploads.lookup commit).map uploadsByLength := by
  induction uploads with
  | nil => rfl
  | cons cu uploads ih =>
    obtain ⟨c, metas⟩ := cu
    by_cases hc : commit = c
    · subst hc; simp [List.find?, List.lookup]
    · have hc2 : ¬ c = commit := fun h => hc h.symm
      have hb : (commit == c) = false := by simpa using hc
      simp only [List.map_cons, List.find?, List.lookup, hb, hc2, decide_True, decide_False,
        Bool.and_false]
      exact ih

theorem find_link_rows (repositoryID : Int) (commit : String)
    (links : List (String × LinkRelationship)) :
    (links.map (fun cl => LinkRow.mk repositoryID cl.1 cl.2.AncestorCommit cl.2.Distance)).find?
        (fun l => decide (l.RepositoryID = repositoryID) && decide (l.Commit = commit)) =
      (links.lookup commit).map
        (fun link => LinkRow.mk repositoryID commit link.AncestorCommit link.Distance) := by
  induction links with
  | nil => rfl
  | cons cl links ih =>
    obtain ⟨c, link⟩ := cl
    by_cases hc : commit = c
    · subst hc; simp [List.find?, List.lookup]
    · have hc2 : ¬ c = commit := fun h => hc h.symm
      have hb : (commit == c) = false := by simpa using hc
      simp only [List.map_cons, List.find?, List.lookup, hb, hc2, decide_True, decide_False,
        Bool.and_false]
      exact ih

theorem find_append_fresh {α : Type} (p : α → Bool) (db rows : List α)
    (h : ∀ r ∈ db, p r = false) : (db ++ rows).find? p = rows.find? p := by
  induction db with
  | nil => rfl
  | cons r db ih =>
    have hr : p r = false := h r (List.mem_cons_self _ _)
    simp only [List.cons_append, List.find?, hr]
    exact ih (fun x hx => h x (List.mem_cons_of_mem _ hx))

theorem lookup_uploadMetasOf (entries : List (String × NearestEntry)) (commit : String) :
    (uploadMetasOf entries).lookup commit =
      (entries.lookup commit).map (fun e => e.map (fun r => r.Meta)) := by
  induction entries with
  | nil => rfl
  | cons ce entries ih =>
    obtain ⟨c, e⟩ := ce
    by_cases hc : commit = c
    · subst hc; simp [uploadMetasOf, List.lookup]
    · have hb : (commit == c) = false := by simpa using hc
      simp only [uploadMetasOf, List.map_cons, List.lookup, hb]
      exact ih


theorem find_insertLinks (linksDB : List LinkRow) (repositoryID : Int) (commit : String)
    (links : List (String × LinkRelationship))
    (hlinksDB : ∀ l ∈ linksDB, l.RepositoryID ≠ repositoryID) :
    (insertLinks linksDB repositoryID links).find?
        (fun l => decide (l.RepositoryID = repositoryID) && decide (l.Commit = commit)) =
      (links.lookup commit).map
        (fun link => LinkRow.mk repositoryID commit link.AncestorCommit link.Distance) := by
  have hfresh : ∀ l ∈ linksDB,
      (decide (l.RepositoryID = repositoryID) && decide (l.Commit = commit)) = false := by
    intro l hl
    simp [hlinksDB l hl]
  unfold insertLinks
  split
  · rename_i hlen
    have hnil : links = [] := List.length_eq_zero.mp hlen
    subst hnil
    have := find_append_fresh _ linksDB [] hfresh
    simpa using this
  · rw [find_append_fresh _ linksDB _ hfresh, find_link_rows]

theorem nearestUploadsOf_insert (nearestDB : List NearestUploadsRow) (repositoryID : Int)
    (commit : String) (entries : List (String × NearestEntry))
    (hnearestDB : ∀ r ∈ nearestDB, r.RepositoryID ≠ repositoryID) :
    nearestUploadsOf
        (nearestDB ++ (uploadMetasOf entries).map (fun cu =>
          NearestUploadsRow.mk repositoryID cu.1 (uploadsByLength cu.2)))
        repositoryID commit =
      (entries.lookup commit).map (fun e => uploadsByLength (e.map (fun r => r.Meta))) := by
  have hfresh : ∀ r ∈ nearestDB,
      (decide (r.RepositoryID = repositoryID) && decide (r.Commit = commit)) = false := by
    intro r hr
    simp [hnearestDB r hr]
  unfold nearestUploadsOf
  rw [find_append_fresh _ nearestDB _ hfresh, find_nearest_rows, lookup_uploadMetasOf]
  cases entries.lookup commit <;> rfl

/-- C5: for every commit graph (commits listed once, parents before children) and every
upload placement, and for every commit of the graph: the uncompressed per-commit algorithm
computes a NearestEntry for the commit; resolving the commit in the compressed index, through
its Link when it has one, gives that entry; the rows written by `insertNearestUploads` (full
entries) and `insertLinks` (links), read back through the Link, hold the uploads and
distances of that entry; and the entry is the entry of the Link's ancestor with every
distance increased by the Link's distance. -/
theorem decompression_equivalence (view : CommitGraphView) (graph : List CommitNode)
    (repositoryID : Int) (nearestDB : List NearestUploadsRow) (linksDB : List LinkRow)
    (commit : String)
    (hnodup : (graph.map (fun n => n.Commit)).Nodup)
    (hnearestDB : ∀ r ∈ nearestDB, r.RepositoryID ≠ repositoryID)
    (hlinksDB : ∀ l ∈ linksDB, l.RepositoryID ≠ repositoryID)
    (hcommit : commit ∈ graph.map (fun n => n.Commit)) :
    ∃ entry nearestRows,
      (calculateNearestEntries view graph).lookup commit = some entry ∧
      resolveNearest (compressNearestEntries view graph) commit = some entry ∧
      insertNearestUploads nearestDB repositoryID
          (uploadMetasOf (compressNearestEntries view graph).Entries) = .ok nearestRows ∧
      visibleUploadsOf nearestRows
          (insertLinks linksDB repositoryID (compressNearestEntries view graph).Links)
          repositoryID commit = some (uploadsByLength (entry.map (fun r => r.Meta))) ∧
      ∀ link, (compressNearestEntries view graph).Links.lookup commit = some link →
        ∃ ancestorEntry,
          (compressNearestEntries view graph).Entries.lookup link.AncestorCommit =
            some ancestorEntry ∧
          (calculateNearestEntries view graph).lookup link.AncestorCommit =
            some ancestorEntry ∧
          shiftDistance link.Distance ancestorEntry = entry := by
  have hag := agree_compress view graph hnodup
  have hsome : (calculateNearestEntries view graph).lookup commit ≠ none :=
    lookup_foldl_nearestStep view graph [] commit (Or.inl hcommit)
  obtain ⟨entry, hentry⟩ := Option.ne_none_iff_exists'.mp hsome
  have hres : resolveNearest (compressNearestEntries view graph) commit = some entry := by
    rw [hag.resolve, hentry]
  have hnonempty : (compressNearestEntries view graph).Entries ≠ [] := by
    intro hnil
    unfold resolveNearest at hres
    rw [hnil] at hres
    cases hl : (compressNearestEntries view graph).Links.lookup commit <;> simp [hl] at hres
  refine ⟨entry, nearestDB ++ (uploadMetasOf (compressNearestEntries view graph).Entries).map
    (fun cu => NearestUploadsRow.mk repositoryID cu.1 (uploadsByLength cu.2)), hentry, hres, ?_, ?_, ?_⟩
  · simp [insertNearestUploads, uploadMetasOf, hnonempty]
  · unfold visibleUploadsOf
    rw [find_insertLinks _ _ _ _ hlinksDB]
    unfold resolveNearest at hres
    cases hl : (compressNearestEntries view graph).Links.lookup commit with
    | some link =>
      simp only [hl, Option.map_some'] at hres ⊢
      rw [nearestUploadsOf_insert _ _ _ _ hnearestDB]
      cases ha : (compressNearestEntries view graph).Entries.lookup link.AncestorCommit with
      | none => simp [ha] at hres
      | some ea =>
        simp only [ha, Option.map_some', Option.some.injEq] at hres ⊢
        rw [← hres, uploadsByLength_shiftDistance]
    | none =>
      simp only [hl, Option.map_none'] at hres ⊢
      rw [nearestUploadsOf_insert _ _ _ _ hnearestDB, hres]
      rfl
  · intro link hl
    obtain ⟨⟨ea, hea⟩, hal⟩ := hag.target commit link hl
    refine ⟨ea, hea, ?_, ?_⟩
    · rw [← hag.resolve]
      simp [resolveNearest, hal, hea]
    · unfold resolveNearest at hres
      simpa [hl, hea] using hres

/-- C5, on the chain `a ← b ← c ← d` with one upload at `a`, at the commit `d`. -/
theorem decompression_equivalence_witness :
    ∃ entry nearestRows,
      (calculateNearestEntries [⟨⟨1, 0⟩, "a", ":x"⟩]
        [⟨"a", []⟩, ⟨"b", ["a"]⟩, ⟨"c", ["b"]⟩, ⟨"d", ["c"]⟩]).lookup "d" = some entry ∧
      resolveNearest (compressNearestEntries [⟨⟨1, 0⟩, "a", ":x"⟩]
        [⟨"a", []⟩, ⟨"b", ["a"]⟩, ⟨"c", ["b"]⟩, ⟨"d", ["c"]⟩]) "d" = some entry ∧
      insertNearestUploads [] 50
          (uploadMetasOf (compressNearestEntries [⟨⟨1, 0⟩, "a", ":x"⟩]
            [⟨"a", []⟩, ⟨"b", ["a"]⟩, ⟨"c", ["b"]⟩, ⟨"d", ["c"]⟩]).Entries) = .ok nearestRows ∧
      visibleUploadsOf nearestRows
          (insertLinks [] 50 (compressNearestEntries [⟨⟨1, 0⟩, "a", ":x"⟩]
            [⟨"a", []⟩, ⟨"b", ["a"]⟩, ⟨"c", ["b"]⟩, ⟨"d", ["c"]⟩]).Links)
          50 "d" = some (uploadsByLength (entry.map (fun r => r.Meta))) ∧
      ∀ link, (compressNearestEntries [⟨⟨1, 0⟩, "a", ":x"⟩]
          [⟨"a", []⟩, ⟨"b", ["a"]⟩, ⟨"c", ["b"]⟩, ⟨"d", ["c"]⟩]).Links.lookup "d" = some link →
        ∃ ancestorEntry,
          (compressNearestEntries [⟨⟨1, 0⟩, "a", ":x"⟩]
            [⟨"a", []⟩, ⟨"b", ["a"]⟩, ⟨"c", ["b"]⟩, ⟨"d", ["c"]⟩]).Entries.lookup
              link.AncestorCommit = some ancestorEntry ∧
          (calculateNearestEntries [⟨⟨1, 0⟩, "a", ":x"⟩]
            [⟨"a", []⟩, ⟨"b", ["a"]⟩, ⟨"c", ["b"]⟩, ⟨"d", ["c"]⟩]).lookup link.AncestorCommit =
            some ancestorEntry ∧
          shiftDistance link.Distance ancestorEntry = entry :=
  decompression_equivalence [⟨⟨1, 0⟩, "a", ":x"⟩]
    [⟨"a", []⟩, ⟨"b", ["a"]⟩, ⟨"c", ["b"]⟩, ⟨"d", ["c"]⟩] 50 [] [] "d"
    (by decide) (by simp) (by simp) (by decide)


/-- C6: on a chain `a ← b ← c ← d` of four distinct commits, with an upload at `a` for a
slot, `NearestUploads(d)` maps the slot to that upload at distance 3; with a second upload
for the same slot at `c`, in the upload list before or after the first, `NearestUploads(d)`
maps the slot to the upload of `c` at distance 1. -/
theorem nearest_upload_wins_on_chain (a b c d root indexer : String) (idA idC : Int)
    (stateA stateC nameA nameC : String) (repoA repoC : Int)
    (hab : a ≠ b) (hac : a ≠ c) (had : a ≠ d) (hbc : b ≠ c) (hbd : b ≠ d) (hcd : c ≠ d) :
    NearestUploads
        (toCommitGraphView NewCommitGraphView CommitGraphView.Add
          [⟨idA, a, root, stateA, repoA, nameA, indexer⟩])
        [⟨a, []⟩, ⟨b, [a]⟩, ⟨c, [b]⟩, ⟨d, [c]⟩] d =
      some [⟨⟨idA, 3⟩, a, slotToken root indexer⟩] ∧
    NearestUploads
        (toCommitGraphView NewCommitGraphView CommitGraphView.Add
          [⟨idA, a, root, stateA, repoA, nameA, indexer⟩,
           ⟨idC, c, root, stateC, repoC, nameC, indexer⟩])
        [⟨a, []⟩, ⟨b, [a]⟩, ⟨c, [b]⟩, ⟨d, [c]⟩] d =
      some [⟨⟨idC, 1⟩, c, slotToken root indexer⟩] ∧
    NearestUploads
        (toCommitGraphView NewCommitGraphView CommitGraphView.Add
          [⟨idC, c, root, stateC, repoC, nameC, indexer⟩,
           ⟨idA, a, root, stateA, repoA, nameA, indexer⟩])
        [⟨a, []⟩, ⟨b, [a]⟩, ⟨c, [b]⟩, ⟨d, [c]⟩] d =
      some [⟨⟨idC, 1⟩, c, slotToken root indexer⟩] := by
  have hba := hab.symm
  have hca := hac.symm
  have hda := had.symm
  have hcb := hbc.symm
  have hdb := hbd.symm
  have hdc := hcd.symm
  have e1 : (a == b) = false := by simpa using hab
  have e2 : (a == c) = false := by simpa using hac
  have e3 : (a == d) = false := by simpa using had
  have e4 : (b == c) = false := by simpa using hbc
  have e5 : (b == d) = false := by simpa using hbd
  have e6 : (c == d) = false := by simpa using hcd
  have e7 : (b == a) = false := by simpa using hba
  have e8 : (c == a) = false := by simpa using hca
  have e9 : (d == a) = false := by simpa using hda
  have e10 : (c == b) = false := by simpa using hcb
  have e11 : (d == b) = false := by simpa using hdb
  have e12 : (d == c) = false := by simpa using hdc
  refine ⟨?_, ?_, ?_⟩
  · simp [NearestUploads, compressNearestEntries, compressStep, toCommitGraphView,
      NewCommitGraphView, CommitGraphView.Add, uploadsDefinedAt, Dbstore.materialize,
      candidatesAt, nearestPerSlot, insertNearest, resolveNearest, shiftDistance, List.lookup,
      List.filter, hab, hac, had, hbc, hbd, hcd, hba, hca, hda, hcb, hdb, hdc,
      e1, e2, e3, e4, e5, e6, e7, e8, e9, e10, e11, e12]
  · simp [NearestUploads, compressNearestEntries, compressStep, toCommitGraphView,
      NewCommitGraphView, CommitGraphView.Add, uploadsDefinedAt, Dbstore.materialize,
      candidatesAt, nearestPerSlot, insertNearest, resolveNearest, shiftDistance, List.lookup,
      List.filter, nearer, hab, hac, had, hbc, hbd, hcd, hba, hca, hda, hcb, hdb, hdc,
      e1, e2, e3, e4, e5, e6, e7, e8, e9, e10, e11, e12]
  · simp [NearestUploads, compressNearestEntries, compressStep, toCommitGraphView,
      NewCommitGraphView, CommitGraphView.Add, uploadsDefinedAt, Dbstore.materialize,
      candidatesAt, nearestPerSlot, insertNearest, resolveNearest, shiftDistance, List.lookup,
      List.filter, nearer, hab, hac, had, hbc, hbd, hcd, hba, hca, hda, hcb, hdb, hdc,
      e1, e2, e3, e4, e5, e6, e7, e8, e9, e10, e11, e12]

/-- C6, on the commits `makeCommit 1`, …, `makeCommit 4` and the slot (root `""`, indexer
`x`). -/
theorem nearest_upload_wins_on_chain_witness :
    NearestUploads
        (toCommitGraphView NewCommitGraphView CommitGraphView.Add
          [⟨1, makeCommit 1, "", "completed", 50, "r", "x"⟩])
        [⟨makeCommit 1, []⟩, ⟨makeCommit 2, [makeCommit 1]⟩, ⟨makeCommit 3, [makeCommit 2]⟩,
          ⟨makeCommit 4, [makeCommit 3]⟩] (makeCommit 4) =
      some [⟨⟨1, 3⟩, makeCommit 1, slotToken "" "x"⟩] ∧
    NearestUploads
        (toCommitGraphView NewCommitGraphView CommitGraphView.Add
          [⟨1, makeCommit 1, "", "completed", 50, "r", "x"⟩,
           ⟨3, makeCommit 3, "", "completed", 50, "r", "x"⟩])
        [⟨makeCommit 1, []⟩, ⟨makeCommit 2, [makeCommit 1]⟩, ⟨makeCommit 3, [makeCommit 2]⟩,
          ⟨makeCommit 4, [makeCommit 3]⟩] (makeCommit 4) =
      some [⟨⟨3, 1⟩, makeCommit 3, slotToken "" "x"⟩] ∧
    NearestUploads
        (toCommitGraphView NewCommitGraphView CommitGraphView.Add
          [⟨3, makeCommit 3, "", "completed", 50, "r", "x"⟩,
           ⟨1, makeCommit 1, "", "completed", 50, "r", "x"⟩])
        [⟨makeCommit 1, []⟩, ⟨makeCommit 2, [makeCommit 1]⟩, ⟨makeCommit 3, [makeCommit 2]⟩,
          ⟨makeCommit 4, [makeCommit 3]⟩] (makeCommit 4) =
      some [⟨⟨3, 1⟩, makeCommit 3, slotToken "" "x"⟩] :=
  nearest_upload_wins_on_chain (makeCommit 1) (makeCommit 2) (makeCommit 3) (makeCommit 4)
    "" "x" 1 3 "completed" "completed" "r" "r" 50 50
    (by decide) (by decide) (by decide) (by decide) (by decide) (by decide)

end Dbstore

namespace Dbstore

/-! ## The `repo` table -/

/-- C14: for every `repo` table, id and name: when the table has a row with the id,
`insertRepo` leaves the table unchanged; when it has none, `insertRepo` appends exactly the
row `(id, name)`, with the name `n-<id>` when the given name is empty. -/
theorem insertRepo_existing_or_new (db : List RepoRow) (id : Int) (name : String) :
    ((∃ r ∈ db, r.ID = id) → insertRepo db id name = db) ∧
    ((∀ r ∈ db, r.ID ≠ id) →
      insertRepo db id name =
        db ++ [{ ID := id, Name := if name = "" then "n-" ++ sprintfInt id else name }] ∧
      (insertRepo db id name).length = db.length + 1) := by
  constructor
  · rintro ⟨r, hr, hid⟩
    have hany : db.any (fun r => decide (r.ID = id)) = true :=
      List.any_eq_true.mpr ⟨r, hr, by simp [hid]⟩
    simp [insertRepo, hany]
  · intro hnone
    have hany : db.any (fun r => decide (r.ID = id)) = false := by
      rw [List.any_eq_false]
      intro r hr
      simp [hnone r hr]
    simp [insertRepo, hany]

/-- C14, at a table with the repository 50: inserting 50 again changes nothing, inserting 51
without name appends `(51, "n-51")`. -/
theorem insertRepo_existing_or_new_witness :
    insertRepo [⟨50, "n-50"⟩] 50 "other" = [⟨50, "n-50"⟩] ∧
      insertRepo [⟨50, "n-50"⟩] 51 "" = [⟨50, "n-50"⟩, ⟨51, "n-51"⟩] :=
  ⟨(insertRepo_existing_or_new [⟨50, "n-50"⟩] 50 "other").1 ⟨⟨50, "n-50"⟩, by decide, rfl⟩,
   by decide⟩

/-! ## Rows of `insertNearestUploads` -/

theorem setDistance_of_not_mem (m : List (Int × Nat)) (uploadID : Int) (distance : Nat)
    (h : uploadID ∉ m.map Prod.fst) : setDistance m uploadID distance = m ++ [(uploadID, distance)] := by
  have hany : m.any (fun kv => kv.1 == uploadID) = false := by
    rw [List.any_eq_false]
    intro kv hkv
    have : kv.1 ≠ uploadID := fun heq => h (heq ▸ List.mem_map_of_mem Prod.fst hkv)
    simpa using this
  simp [setDistance, hany]

theorem foldl_setDistance_of_nodup (metas : List UploadMeta) :
    ∀ m : List (Int × Nat),
      (m.map Prod.fst ++ metas.map (fun u => u.UploadID)).Nodup →
      metas.foldl (fun m u => setDistance m u.UploadID u.Distance) m =
        m ++ metas.map (fun u => (u.UploadID, u.Distance)) := by
  induction metas with
  | nil => intro m _; simp
  | cons u metas ih =>
    intro m h
    have hu : u.UploadID ∉ m.map Prod.fst := by
      intro hmem
      exact (List.nodup_append.mp h).2.2 hmem (List.mem_cons_self _ _)
    rw [List.foldl_cons, setDistance_of_not_mem m _ _ hu, ih]
    · simp
    · simpa [List.map_append] using h

theorem uploadsByLength_of_nodup (metas : List UploadMeta)
    (h : (metas.map (fun u => u.UploadID)).Nodup) :
    uploadsByLength metas = metas.map (fun u => (u.UploadID, u.Distance)) := by
  have := foldl_setDistance_of_nodup metas [] (by simpa using h)
  simpa [uploadsByLength] using this

/-- C15, counterexample: for the list `[{UploadID: 1, Distance: 0}, {UploadID: 1, Distance: 2}]`
the object written has the single entry `1 ↦ 2`: one entry for two UploadMetas, and the pair
`(1, 0)` of the input is not read back. -/
theorem insertNearestUploads_duplicate_id :
    insertNearestUploads [] 50 [("c", [⟨1, 0⟩, ⟨1, 2⟩])] = .ok [⟨50, "c", [(1, 2)]⟩] ∧
      ((1 : Int), (0 : Nat)) ∉ [((1 : Int), (2 : Nat))] ∧
      [((1 : Int), (2 : Nat))].length ≠ [(⟨1, 0⟩ : UploadMeta), ⟨1, 2⟩].length := by
  decide

/-- C15, amended: for every commit of the input map whose UploadMetas have pairwise distinct
UploadIDs, `insertNearestUploads` succeeds and the row written for the commit holds exactly
one entry per UploadMeta of the list, `UploadID ↦ Distance`, in list order. -/
theorem insertNearestUploads_persists (db : List NearestUploadsRow) (repositoryID : Int)
    (uploads : List (String × List UploadMeta)) (commit : String) (uploadMetas : List UploadMeta)
    (hmem : (commit, uploadMetas) ∈ uploads)
    (hnodup : (uploadMetas.map (fun u => u.UploadID)).Nodup) :
    ∃ db1, insertNearestUploads db repositoryID uploads = .ok db1 ∧
      (⟨repositoryID, commit, uploadMetas.map (fun u => (u.UploadID, u.Distance))⟩ :
        NearestUploadsRow) ∈ db1 := by
  have hne : uploads ≠ [] := List.ne_nil_of_mem hmem
  refine ⟨db ++ uploads.map (fun cu =>
    NearestUploadsRow.mk repositoryID cu.1 (uploadsByLength cu.2)), ?_, ?_⟩
  · simp [insertNearestUploads, hne]
  · apply List.mem_append_right
    rw [← uploadsByLength_of_nodup uploadMetas hnodup]
    exact List.mem_map.mpr ⟨(commit, uploadMetas), hmem, rfl⟩

/-- C15, amended, at a map with one commit and two uploads. -/
theorem insertNearestUploads_persists_witness :
    ∃ db1, insertNearestUploads [] 50 [("c", [⟨1, 0⟩, ⟨2, 3⟩])] = .ok db1 ∧
      (⟨50, "c", [(1, 0), (2, 3)]⟩ : NearestUploadsRow) ∈ db1 :=
  insertNearestUploads_persists [] 50 [("c", [⟨1, 0⟩, ⟨2, 3⟩])] "c" [⟨1, 0⟩, ⟨2, 3⟩]
    (by decide) (by decide)

/-! ## Sorting visible uploads -/

theorem insertBackwards_perm {α : Type} (less : α → α → Bool) (x : α) (l : List α) :
    (insertBackwards less x l).Perm (x :: l) := by
  induction l with
  | nil => exact List.Perm.refl _
  | cons y l ih =>
    unfold insertBackwards
    split
    · exact (List.Perm.cons y ih).trans (List.Perm.swap x y l)
    · exact List.Perm.refl _

theorem foldl_insertBackwards_perm {α : Type} (less : α → α → Bool) (s : List α) :
    ∀ acc : List α,
      (s.foldl (fun prefixRev x => insertBackwards less x prefixRev) acc).Perm (s ++ acc) := by
  induction s with
  | nil => intro acc; exact List.Perm.refl _
  | cons x s ih =>
    intro acc
    rw [List.foldl_cons]
    refine (ih _).trans ?_
    refine (List.Perm.append_left s (insertBackwards_perm less x acc)).trans ?_
    simp

theorem sortSlice_perm {α : Type} (less : α → α → Bool) (s : List α) :
    (sortSlice less s).Perm s := by
  unfold sortSlice
  refine (List.reverse_perm _).trans ?_
  simpa using foldl_insertBackwards_perm less s []

theorem normalizeVisibleUploads_keys (uploadMetas : List (String × List UploadMeta)) :
    (normalizeVisibleUploads uploadMetas).map Prod.fst = uploadMetas.map Prod.fst := by
  simp [normalizeVisibleUploads, List.map_map, Function.comp_def]

theorem wrapInt64_of_small (x : Int) (h1 : -(2 ^ 63) ≤ x) (h2 : x < 2 ^ 63) :
    wrapInt64 x = x := by
  unfold wrapInt64
  rw [Int.emod_eq_of_lt (by omega) (by omega)]
  omega

theorem uploadIDLess_iff (a b : UploadMeta)
    (ha : -(2 ^ 62) ≤ a.UploadID ∧ a.UploadID < 2 ^ 62)
    (hb : -(2 ^ 62) ≤ b.UploadID ∧ b.UploadID < 2 ^ 62) :
    uploadIDLess a b = true ↔ a.UploadID < b.UploadID := by
  unfold uploadIDLess
  rw [wrapInt64_of_small _ (by omega) (by omega)]
  simp

/-- The sorted prefix, last element first, is in non-increasing order of UploadID. -/
theorem insertBackwards_sorted (x : UploadMeta) (l : List UploadMeta)
    (hx : -(2 ^ 62) ≤ x.UploadID ∧ x.UploadID < 2 ^ 62)
    (hl : ∀ u ∈ l, -(2 ^ 62) ≤ u.UploadID ∧ u.UploadID < 2 ^ 62)
    (hs : List.Sorted (fun a b : UploadMeta => b.UploadID ≤ a.UploadID) l) :
    List.Sorted (fun a b : UploadMeta => b.UploadID ≤ a.UploadID)
      (insertBackwards uploadIDLess x l) := by
  induction l with
  | nil => simp [insertBackwards]
  | cons y l ih =>
    have hy := hl y (List.mem_cons_self _ _)
    have hl2 : ∀ u ∈ l, -(2 ^ 62) ≤ u.UploadID ∧ u.UploadID < 2 ^ 62 :=
      fun u hu => hl u (List.mem_cons_of_mem _ hu)
    have hs2 := List.Sorted.of_cons hs
    have hrel := List.rel_of_sorted_cons hs
    unfold insertBackwards
    split
    · rename_i hless
      have hlt := (uploadIDLess_iff x y hx hy).mp hless
      refine List.sorted_cons.mpr ⟨?_, ih hl2 hs2⟩
      intro b hb
      rcases List.mem_cons.mp ((insertBackwards_perm uploadIDLess x l).mem_iff.mp hb) with rfl | hb
      · exact le_of_lt hlt
      · exact hrel b hb
    · rename_i hless
      have hge : y.UploadID ≤ x.UploadID := by
        by_contra hcon
        exact hless ((uploadIDLess_iff x y hx hy).mpr (by omega))
      refine List.sorted_cons.mpr ⟨?_, hs⟩
      intro b hb
      rcases List.mem_cons.mp hb with rfl | hb
      · exact hge
      · exact le_trans (hrel b hb) hge

theorem foldl_insertBackwards_sorted (s : List UploadMeta) :
    ∀ acc : List UploadMeta,
      (∀ u ∈ s, -(2 ^ 62) ≤ u.UploadID ∧ u.UploadID < 2 ^ 62) →
      (∀ u ∈ acc, -(2 ^ 62) ≤ u.UploadID ∧ u.UploadID < 2 ^ 62) →
      List.Sorted (fun a b : UploadMeta => b.UploadID ≤ a.UploadID) acc →
      List.Sorted (fun a b : UploadMeta => b.UploadID ≤ a.UploadID)
        (s.foldl (fun prefixRev x => insertBackwards uploadIDLess x prefixRev) acc) := by
  induction s with
  | nil => intro acc _ _ h; exact h
  | cons x s ih =>
    intro acc hs hacc hsorted
    rw [List.foldl_cons]
    have hx := hs x (List.mem_cons_self _ _)
    apply ih
    · exact fun u hu => hs u (List.mem_cons_of_mem _ hu)
    · intro u hu
      rcases List.mem_cons.mp ((insertBackwards_perm uploadIDLess x acc).mem_iff.mp hu) with
        rfl | hu
      · exact hx
      · exact hacc u hu
    · exact insertBackwards_sorted x acc hx hacc hsorted

/-- For upload IDs between `-2^62` and `2^62`, whose differences do not overflow, the
comparator is the order of the IDs and the sorted list is in non-decreasing order of
UploadID; it is a permutation of the input for every comparator. -/
theorem sortSlice_uploadIDLess_sorted (s : List UploadMeta)
    (hs : ∀ u ∈ s, -(2 ^ 62) ≤ u.UploadID ∧ u.UploadID < 2 ^ 62) :
    List.Sorted (fun a b : UploadMeta => a.UploadID ≤ b.UploadID) (sortSlice uploadIDLess s) := by
  have h := foldl_insertBackwards_sorted s [] hs (by simp) (by simp)
  unfold sortSlice
  unfold List.Sorted at h ⊢
  rw [List.pairwise_reverse]
  exact h

/-- C18, at the failing input: with the upload IDs `1` and `-2^63`, the difference
`1 - (-2^63)` wraps to a negative number, the comparator puts `1` first, and the list that
`normalizeVisibleUploads` leaves is not in non-decreasing order of UploadID. -/
theorem normalizeVisibleUploads_overflow :
    uploadIDLess ⟨1, 0⟩ ⟨-9223372036854775808, 0⟩ = true ∧
    normalizeVisibleUploads [("c", [⟨-9223372036854775808, 0⟩, ⟨1, 0⟩])] =
      [("c", [⟨1, 0⟩, ⟨-9223372036854775808, 0⟩])] ∧
    ¬ List.Sorted (fun a b : UploadMeta => a.UploadID ≤ b.UploadID)
        [⟨1, 0⟩, ⟨-9223372036854775808, 0⟩] := by
  decide

end Dbstore

namespace Lsifstore

/-! ## Splitting the search query -/

theorem indexColon_append (before after : List Char) (h : ':' ∉ before) :
    indexColon (before ++ ':' :: after) = (before.length : Nat) := by
  have hmem : ':' ∈ before ++ ':' :: after := by simp
  simp [indexColon, hmem, List.indexOf_append_of_not_mem h]

/-- C11: for every query `before ++ ":" ++ after` in which `before` has no `:`, the metadata
query is `TrimSpace(before)` and the main query is `TrimSpace(after)`, whatever colons
`after` contains; for every query without `:`, both are the whole query. -/
theorem splitQuery_at_first_colon :
    (∀ before after : List Char, ':' ∉ before →
      splitQuery (String.mk (before ++ ':' :: after)) =
        (String.mk (trimSpace before), String.mk (trimSpace after))) ∧
    (∀ query : String, ':' ∉ query.data → splitQuery query = (query, query)) := by
  constructor
  · intro before after h
    have hi := indexColon_append before after h
    have hne : ((before.length : Nat) : Int) ≠ -1 := by omega
    simp only [splitQuery, hi, hne, ne_eq, not_false_eq_true, if_true, Int.toNat_ofNat]
    simp
  · intro query h
    simp [splitQuery, indexColon, h]

/-- C11, at the queries `go package: mux: x` and `mux`. -/
theorem splitQuery_at_first_colon_witness :
    splitQuery "go package: mux: x" = ("go package", "mux: x") ∧ splitQuery "mux" = ("mux", "mux") :=
  ⟨splitQuery_at_first_colon.1 "go package".data " mux: x".data (by decide),
   splitQuery_at_first_colon.2 "mux" (by decide)⟩

/-! ## Result IDs of a path ID -/

theorem length_le_toDigitsCore (b fuel : Nat) :
    ∀ (n : Nat) (acc : List Char), acc.length ≤ (Nat.toDigitsCore b fuel n acc).length := by
  induction fuel with
  | zero => intro n acc; simp [Nat.toDigitsCore]
  | succ fuel ih =>
    intro n acc
    simp only [Nat.toDigitsCore]
    split
    · simp
    · exact le_trans (by simp) (ih _ _)

theorem toDigits_ne_nil (n : Nat) : Nat.toDigits 10 n ≠ [] := by
  intro h
  have h1 : (Nat.toDigits 10 n).length = 0 := by rw [h]; rfl
  unfold Nat.toDigits at h1
  simp only [Nat.toDigitsCore] at h1
  split at h1
  · simp at h1
  · have := length_le_toDigitsCore 10 n (n / 10) [Nat.digitChar (n % 10)]
    simp at this
    omega

theorem formatInt_ne_empty (i : Int) : formatInt i ≠ "" := by
  unfold formatInt
  split
  · intro h
    have := congrArg String.data h
    simp at this
  · intro h
    have := congrArg String.data h
    exact toDigits_ne_nil _ (by simpa using this)

/-- C17, counterexample: the row of path ID `p` in bundle 1 stores the result ID `-1`; the
query succeeds and matches that row, and `documentationPathIDToID` returns the empty ID. -/
theorem documentationPathIDToID_minus_one :
    documentationPathIDToIDQuery ⟨[⟨1, -1, "p", none⟩], none⟩ 1 "p" = .ok [-1] ∧
      documentationPathIDToID ⟨[⟨1, -1, "p", none⟩], none⟩ 1 "p" = ("", none) := by
  decide

/-- C17, amended: when the query succeeds, `documentationPathIDToID` returns no error, and
it returns the empty ID if and only if no mapping row matches the (bundle, path ID) pair or
the row the query returns stores the result ID `-1`; a returned row with any other stored
result ID yields the non-empty decimal text of that result ID. -/
theorem documentationPathIDToID_empty_iff (db : Database) (bundleID : Int) (pathID : String)
    (hquery : db.QueryErr = none) :
    (documentationPathIDToID db bundleID pathID).2 = none ∧
    ((documentationPathIDToID db bundleID pathID).1 = "" ↔
      (db.Mappings.filter (fun r =>
          decide (r.DumpID = bundleID) && decide (r.PathID = pathID))) = [] ∨
        ∃ r, (db.Mappings.filter (fun r =>
          decide (r.DumpID = bundleID) && decide (r.PathID = pathID))).head? = some r ∧
            r.ResultID = -1) ∧
    (∀ r, (db.Mappings.filter (fun r =>
        decide (r.DumpID = bundleID) && decide (r.PathID = pathID))).head? = some r →
      r.ResultID ≠ -1 →
        documentationPathIDToID db bundleID pathID = (formatInt r.ResultID, none) ∧
          formatInt r.ResultID ≠ "") := by
  unfold documentationPathIDToID documentationPathIDToIDQuery
  rw [hquery]
  cases hm : db.Mappings.filter (fun r =>
      decide (r.DumpID = bundleID) && decide (r.PathID = pathID)) with
  | nil => simp [scanFirstDocumentationResultID]
  | cons r rest =>
    by_cases hr : r.ResultID = -1
    · simp [scanFirstDocumentationResultID, hr]
    · have hf := formatInt_ne_empty r.ResultID
      simp [scanFirstDocumentationResultID, hr, hf]

/-- C17, amended, at a table whose row for path ID `q` stores the result ID 5. -/
theorem documentationPathIDToID_empty_iff_witness :
    documentationPathIDToID ⟨[⟨1, -1, "p", none⟩, ⟨1, 5, "q", some "f.go"⟩], none⟩ 1 "q" =
        (formatInt 5, none) ∧ formatInt 5 ≠ "" :=
  (documentationPathIDToID_empty_iff ⟨[⟨1, -1, "p", none⟩, ⟨1, 5, "q", some "f.go"⟩], none⟩ 1 "q"
    rfl).2.2 ⟨1, 5, "q", some "f.go"⟩ (by decide) (by decide)

/-! ## Definitions of a documented symbol -/

theorem findRange_eq_none (ranges : List RangeData) (resultID : String) :
    findRange ranges resultID = none ↔ ∀ rn ∈ ranges, rn.DocumentationResultID ≠ resultID := by
  simp [findRange, List.find?_eq_none]

/-- C12: for every bundle, path ID and result ID: when the path ID maps to a file path and
the document of that file exists, `documentationDefinitions` returns the error `not found`
if and only if no range of the document has `DocumentationResultID` equal to the result ID;
when the path ID has no file path, `documentationDefinitions` returns no locations, the
total count 0 and no error, and so does `DocumentationDefinitions` when the path ID has no
result ID. -/
theorem documentationDefinitions_not_found {Location : Type} (db : Database)
    (store : LocationStore Location) (extractor : RangeData → String) (bundleID : Int)
    (pathID resultID : String) (limit offset : Int) :
    (∀ (filePath : String) (ranges : List RangeData),
      documentationPathIDToFilePath db bundleID pathID = (some filePath, none) →
      store.documentRanges bundleID filePath = .ok (some ranges) →
      ((documentationDefinitions db store extractor bundleID pathID resultID limit offset).err =
          some .notFound ↔
        ∀ rn ∈ ranges, rn.DocumentationResultID ≠ resultID)) ∧
    (documentationPathIDToFilePath db bundleID pathID = (none, none) →
      documentationDefinitions db store extractor bundleID pathID resultID limit offset =
        .returned none 0 none) ∧
    (documentationPathIDToID db bundleID pathID = ("", none) →
      DocumentationDefinitions db store bundleID pathID limit offset =
        .returned none 0 none) := by
  refine ⟨?_, ?_, ?_⟩
  · intro filePath ranges hpath hdoc
    rw [← findRange_eq_none]
    unfold documentationDefinitions
    simp only [hpath, hdoc]
    cases hfind : findRange ranges resultID with
    | none => simp [Outcome.err]
    | some found =>
      simp only
      cases store.locations bundleID (store.extractResultIDs [found] extractor) limit offset with
      | error err => simp [Outcome.err]
      | ok res =>
        obtain ⟨locationsMap, totalCount⟩ := res
        by_cases hlimit : limit < 0 <;> simp [Outcome.err, hlimit]
  · intro hpath
    unfold documentationDefinitions
    simp [hpath]
  · intro hid
    unfold DocumentationDefinitions
    simp [hid]

/-- C12, at a document whose only range documents the result ID 5: asking for the result ID 6
gives `not found`; a path ID without row gives no locations and no error. -/
theorem documentationDefinitions_not_found_witness :
    ((@documentationDefinitions String ⟨[⟨1, 5, "q", some "f.go"⟩], none⟩
        ⟨fun _ _ => .ok (some [⟨"d1", "5"⟩]), fun _ _ => [], fun _ _ _ _ => .ok ([], 0)⟩
        (fun r => r.DefinitionResultID) 1 "q" "6" 10 0).err = some .notFound ↔
      ∀ rn ∈ [(⟨"d1", "5"⟩ : RangeData)], rn.DocumentationResultID ≠ "6") ∧
    @documentationDefinitions String ⟨[⟨1, 5, "q", some "f.go"⟩], none⟩
        ⟨fun _ _ => .ok (some [⟨"d1", "5"⟩]), fun _ _ => [], fun _ _ _ _ => .ok ([], 0)⟩
        (fun r => r.DefinitionResultID) 1 "other" "6" 10 0 = .returned none 0 none :=
  ⟨(@documentationDefinitions_not_found String ⟨[⟨1, 5, "q", some "f.go"⟩], none⟩
      ⟨fun _ _ => .ok (some [⟨"d1", "5"⟩]), fun _ _ => [], fun _ _ _ _ => .ok ([], 0)⟩
      (fun r => r.DefinitionResultID) 1 "q" "6" 10 0).1 "f.go" [⟨"d1", "5"⟩] (by decide) rfl,
   (@documentationDefinitions_not_found String ⟨[⟨1, 5, "q", some "f.go"⟩], none⟩
      ⟨fun _ _ => .ok (some [⟨"d1", "5"⟩]), fun _ _ => [], fun _ _ _ _ => .ok ([], 0)⟩
      (fun r => r.DefinitionResultID) 1 "other" "6" 10 0).2.1 (by decide)⟩

end Lsifstore

namespace Migrations

/-! ## Identifiers of migrations -/

theorem signed_range (neg : Bool) (un : Nat) (e1 e2 : Lsifstore.NumError) (i : Int)
    (h : (if (!neg && decide (un ≥ 2 ^ 63)) = true then (Except.error e1 : Except _ Int)
          else if (neg && decide (un > 2 ^ 63)) = true then Except.error e2
          else Except.ok (if neg = true then -(un : Int) else (un : Int))) = .ok i) :
    -(2 ^ 63) ≤ i ∧ i < 2 ^ 63 := by
  cases neg with
  | true =>
    by_cases hu : 9223372036854775808 < un
    · simp [hu] at h
    · simp [hu] at h
      subst h
      have : (un : Int) ≤ 9223372036854775808 := by exact_mod_cast Nat.le_of_not_gt hu
      omega
  | false =>
    by_cases hu : 9223372036854775808 ≤ un
    · simp [hu] at h
    · simp [hu] at h
      subst h
      have : (un : Int) < 9223372036854775808 := by exact_mod_cast Nat.lt_of_not_ge hu
      omega

theorem atoi_range (s : String) (i : Int) (h : atoi s = .ok i) :
    -(2 ^ 63) ≤ i ∧ i < 2 ^ 63 := by
  unfold atoi at h
  by_cases hs : s = ""
  · simp [hs] at h
  · simp only [hs, if_false] at h
    generalize (if s.data.head? = some '+' ∨ s.data.head? = some '-' then s.data.tail
      else s.data) = digits at h
    by_cases hd : digits = []
    · simp [hd] at h
    · simp only [hd, if_false] at h
      cases hp : Lsifstore.parseUintLoop s digits 0 with
      | error e =>
        rw [hp] at h
        cases e <;> simp at h
      | ok un =>
        rw [hp] at h
        exact signed_range _ un _ _ i h

theorem migrationID_range (name : String) (id : Int) (h : migrationID name = .ok id) :
    -(2 ^ 63) ≤ id ∧ id < 2 ^ 63 := by
  unfold migrationID at h
  split at h
  · split at h
    · simp at h
    · rename_i i hi
      simp only [Except.ok.injEq] at h
      subst h
      exact atoi_range _ _ hi
  · simp at h

theorem collectByID_eq (ups : List String) (ids : List Int)
    (hparse : List.Forall₂ (fun name id => migrationID name = .ok id) ups ids) :
    ∀ byID, collectByID ups byID = .ok (groupByID (ids.zip ups) byID) := by
  induction hparse with
  | nil => intro byID; rfl
  | cons h _ ih =>
    intro byID
    simp only [collectByID, h, List.zip_cons_cons, groupByID, List.foldl_cons]
    exact ih _

theorem keys_byIDAppend (byID : List (Int × List String)) (id : Int) (name : String) :
    (byIDAppend byID id name).map Prod.fst =
      if id ∈ byID.map Prod.fst then byID.map Prod.fst else byID.map Prod.fst ++ [id] := by
  unfold byIDAppend
  by_cases hmem : id ∈ byID.map Prod.fst
  · have hany : byID.any (fun kv => kv.1 == id) = true := by
      obtain ⟨kv, hkv, hid⟩ := List.mem_map.mp hmem
      exact List.any_eq_true.mpr ⟨kv, hkv, by simp [hid]⟩
    simp only [hany, if_true, hmem, List.map_map]
    apply List.map_congr_left
    intro kv _
    by_cases h : kv.1 = id <;> simp [h]
  · have hany : byID.any (fun kv => kv.1 == id) = false := by
      rw [List.any_eq_false]
      intro kv hkv
      have : kv.1 ≠ id := fun heq => hmem (heq ▸ List.mem_map_of_mem Prod.fst hkv)
      simpa using this
    simp [hany, hmem]

theorem Grouped.byIDAppend_step {byID : List (Int × List String)} {seen : List Int}
    (h : Grouped byID seen) (id : Int) (name : String) :
    Grouped (byIDAppend byID id name) (id :: seen) := by
  have hkeys := keys_byIDAppend byID id name
  by_cases hmem : id ∈ byID.map Prod.fst
  · have hany : byID.any (fun kv => kv.1 == id) = true := by
      obtain ⟨kv, hkv, hid⟩ := List.mem_map.mp hmem
      exact List.any_eq_true.mpr ⟨kv, hkv, by simp [hid]⟩
    simp only [hmem, if_true] at hkeys
    refine ⟨by rw [hkeys]; exact h.nodup, ?_, ?_⟩
    · intro kv hkv
      simp only [byIDAppend, hany, if_true, List.mem_map] at hkv
      obtain ⟨kv0, hkv0, rfl⟩ := hkv
      have hc := h.count kv0 hkv0
      by_cases hid : kv0.1 = id
      · have hb : (kv0.1 == id) = true := by simp [hid]
        have hb2 : (id == kv0.1) = true := by simp [hid]
        simp only [hb, if_true, List.length_append, List.length_singleton, List.count_cons, hc,
          hb2]
      · have hb : (kv0.1 == id) = false := by simpa using hid
        have hb2 : (id == kv0.1) = false := by
          simpa using (fun heq : id = kv0.1 => hid heq.symm)
        simp only [hb, Bool.false_eq_true, if_false, List.count_cons, hc, hb2, Nat.add_zero]
    · intro a
      rw [hkeys, h.mem a, List.mem_cons]
      constructor
      · exact Or.inr
      · rintro (rfl | ha)
        · exact (h.mem _).mp hmem
        · exact ha
  · have hany : byID.any (fun kv => kv.1 == id) = false := by
      rw [List.any_eq_false]
      intro kv hkv
      have : kv.1 ≠ id := fun heq => hmem (heq ▸ List.mem_map_of_mem Prod.fst hkv)
      simpa using this
    simp only [hmem, if_false] at hkeys
    have hseen : id ∉ seen := fun hs => hmem ((h.mem id).mpr hs)
    refine ⟨?_, ?_, ?_⟩
    · rw [hkeys]
      exact List.Nodup.append h.nodup (List.nodup_singleton _) (by simpa using hmem)
    · intro kv hkv
      simp only [byIDAppend, hany, Bool.false_eq_true, if_false, List.mem_append,
        List.mem_singleton] at hkv
      rcases hkv with hkv | rfl
      · have hne : kv.1 ≠ id := fun heq => hmem (heq ▸ List.mem_map_of_mem Prod.fst hkv)
        have hb2 : (id == kv.1) = false := by
          simpa using (fun heq : id = kv.1 => hne heq.symm)
        simp only [List.count_cons, hb2, Bool.false_eq_true, if_false, Nat.add_zero,
          h.count kv hkv]
      · simp [List.count_cons, List.count_eq_zero_of_not_mem hseen]
    · intro a
      rw [hkeys]
      simp only [List.mem_append, List.mem_cons, List.mem_singleton, List.not_mem_nil, or_false,
        h.mem a]
      tauto

theorem grouped_groupByID (pairs : List (Int × String)) :
    ∀ (byID : List (Int × List String)) (seen : List Int), Grouped byID seen →
      Grouped (groupByID pairs byID) ((pairs.map Prod.fst).reverse ++ seen) := by
  induction pairs with
  | nil => intro byID seen h; simpa [groupByID] using h
  | cons p pairs ih =>
    intro byID seen h
    have := ih _ _ (h.byIDAppend_step p.1 p.2)
    simpa [groupByID] using this

theorem grouped_of_parse (ups : List String) (ids : List Int)
    (hparse : List.Forall₂ (fun name id => migrationID name = .ok id) ups ids) :
    Grouped (groupByID (ids.zip ups) []) ids.reverse := by
  have hlen : ids.length = ups.length := hparse.length_eq.symm
  have h := grouped_groupByID (ids.zip ups) [] []
    ⟨by simp, by simp, by simp⟩
  have hfst : (ids.zip ups).map Prod.fst = ids := by
    rw [List.map_fst_zip]
    omega
  simpa [hfst] using h

theorem multiples_eq_nil_iff (byID : List (Int × List String)) (ids : List Int)
    (h : Grouped byID ids.reverse) :
    byID.filterMap (fun kv =>
        if kv.2.length > 1 then some (IDError.multiple kv.1 kv.2) else none) = [] ↔
      ids.Nodup := by
  rw [List.filterMap_eq_nil_iff, List.nodup_iff_count_le_one]
  constructor
  · intro hall a
    by_cases ha : a ∈ ids
    · have hkey : a ∈ byID.map Prod.fst := (h.mem a).mpr (List.mem_reverse.mpr ha)
      obtain ⟨kv, hkv, rfl⟩ := List.mem_map.mp hkey
      have hc := h.count kv hkv
      rw [List.count_reverse] at hc
      have := hall kv hkv
      by_contra hgt
      have hlt : 1 < kv.2.length := by omega
      simp [hlt] at this
    · rw [List.count_eq_zero_of_not_mem ha]
      exact Nat.zero_le _
  · intro hcount kv hkv
    have hc := h.count kv hkv
    rw [List.count_reverse] at hc
    have := hcount kv.1
    have hle : ¬ (kv.2.length > 1) := by omega
    simp [hle]

theorem gapErrors_eq_nil_iff (byID : List (Int × List String)) (ids : List Int) :
    gapErrors byID ids = [] ↔ List.Chain' (fun a b => Dbstore.wrapInt64 (a + 1) = b) ids := by
  induction ids with
  | nil => simp [gapErrors]
  | cons a ids ih =>
    cases ids with
    | nil => simp [gapErrors]
    | cons b ids =>
      simp only [gapErrors, List.append_eq_nil, List.chain'_cons, ih]
      by_cases hab : Dbstore.wrapInt64 (a + 1) = b <;> simp [hab]

theorem chain_wrap_iff (ids : List Int) (hsorted : List.Sorted (fun a b => a ≤ b) ids)
    (hrange : ∀ id ∈ ids, -(2 ^ 63) ≤ id ∧ id < 2 ^ 63) :
    List.Chain' (fun a b => Dbstore.wrapInt64 (a + 1) = b) ids ↔
      List.Chain' (fun a b => b = a + 1) ids := by
  induction ids with
  | nil => simp
  | cons a ids ih =>
    cases ids with
    | nil => simp
    | cons b ids =>
      have hs2 := List.Sorted.of_cons hsorted
      have hab : a ≤ b := List.rel_of_sorted_cons hsorted b (List.mem_cons_self _ _)
      have ha := hrange a (List.mem_cons_self _ _)
      have hb := hrange b (List.mem_cons_of_mem _ (List.mem_cons_self _ _))
      have ih2 := ih hs2 (fun id hid => hrange id (List.mem_cons_of_mem _ hid))
      simp only [List.chain'_cons, ih2]
      constructor
      · rintro ⟨hw, hrest⟩
        refine ⟨?_, hrest⟩
        by_cases hmax : a + 1 < 2 ^ 63
        · rw [Dbstore.wrapInt64_of_small _ (by omega) hmax] at hw
          exact hw.symm
        · have hamax : a + 1 = 2 ^ 63 := by omega
          rw [hamax] at hw
          have : Dbstore.wrapInt64 (2 ^ 63) = -(2 ^ 63) := by decide
          rw [this] at hw
          omega
      · rintro ⟨hw, hrest⟩
        refine ⟨?_, hrest⟩
        rw [Dbstore.wrapInt64_of_small _ (by omega) (by omega)]
        exact hw.symm

theorem sortInts_keys_eq (byID : List (Int × List String)) (ids : List Int)
    (h : Grouped byID ids.reverse) (hnodup : ids.Nodup) :
    sortInts (byID.map Prod.fst) = sortInts ids := by
  have hperm : (byID.map Prod.fst).Perm ids := by
    rw [List.perm_ext_iff_of_nodup h.nodup hnodup]
    intro a
    rw [h.mem a, List.mem_reverse]
  unfold sortInts
  exact List.eq_of_perm_of_sorted
    (((List.perm_insertionSort _ _).trans hperm).trans (List.perm_insertionSort _ _).symm)
    (List.sorted_insertionSort _ _) (List.sorted_insertionSort _ _)

/-- The check in terms of `sortInts`: no error is reported if and only if the list is not
empty, the IDs are pairwise distinct and consecutive in the list `sortInts` returns. -/
theorem TestIDConstraints_ok_iff_sortInts (ups : List String) (ids : List Int)
    (hparse : List.Forall₂ (fun name id => migrationID name = .ok id) ups ids) :
    TestIDConstraints ups = .ok [] ↔
      ups ≠ [] ∧ ids.Nodup ∧ List.Chain' (fun a b => b = a + 1) (sortInts ids) := by
  by_cases hups : ups = []
  · subst hups
    simp [TestIDConstraints]
  · have hlen : ¬ ups.length = 0 := fun h => hups (List.length_eq_zero.mp h)
    have hg := grouped_of_parse ups ids hparse
    have hrange : ∀ id ∈ sortInts ids, -(2 ^ 63) ≤ id ∧ id < 2 ^ 63 := by
      intro id hid
      have hid2 : id ∈ ids := (List.perm_insertionSort _ ids).mem_iff.mp hid
      obtain ⟨n, hn⟩ := List.getElem_of_mem hid2
      obtain ⟨hn1, hn2⟩ := hn
      have hn3 : n < ups.length := by rw [hparse.length_eq]; exact hn1
      have := List.forall₂_iff_get.mp hparse |>.2 n hn3 hn1
      simp only [List.get_eq_getElem] at this
      rw [hn2] at this
      exact migrationID_range _ _ this
    have hsorted : List.Sorted (fun a b => a ≤ b) (sortInts ids) :=
      List.sorted_insertionSort _ _
    simp only [TestIDConstraints, hlen, if_false, collectByID_eq ups ids hparse [],
      Except.ok.injEq, List.append_eq_nil, multiples_eq_nil_iff _ ids hg, gapErrors_eq_nil_iff,
      ne_eq, hups, not_false_eq_true, true_and]
    constructor
    · rintro ⟨hnodup, hchain⟩
      rw [sortInts_keys_eq _ ids hg hnodup] at hchain
      exact ⟨hnodup, (chain_wrap_iff _ hsorted hrange).mp hchain⟩
    · rintro ⟨hnodup, hchain⟩
      rw [sortInts_keys_eq _ ids hg hnodup]
      exact ⟨hnodup, (chain_wrap_iff _ hsorted hrange).mpr hchain⟩

/-- C13: for every list of up-migration file names whose prefix before the first `_` is an
integer (`ids` are these integers, in the order of the names), the check of
`TestIDConstraints` ends with no error reported if and only if the list is not empty, no two
names have the same ID, and the IDs put in non-decreasing order are consecutive: in the
rearrangement of `ids` that is in non-decreasing order, each ID is its predecessor plus 1. -/
theorem TestIDConstraints_no_error_iff (ups : List String) (ids : List Int)
    (hparse : List.Forall₂ (fun name id => migrationID name = .ok id) ups ids) :
    TestIDConstraints ups = .ok [] ↔
      ups ≠ [] ∧ ids.Nodup ∧
        ∃ sorted : List Int, sorted.Perm ids ∧ List.Sorted (fun a b => a ≤ b) sorted ∧
          List.Chain' (fun a b => b = a + 1) sorted := by
  rw [TestIDConstraints_ok_iff_sortInts ups ids hparse]
  constructor
  · rintro ⟨hne, hnodup, hchain⟩
    exact ⟨hne, hnodup, sortInts ids, List.perm_insertionSort _ _,
      List.sorted_insertionSort _ _, hchain⟩
  · rintro ⟨hne, hnodup, sorted, hperm, hsorted, hchain⟩
    have heq : sortInts ids = sorted :=
      List.eq_of_perm_of_sorted ((List.perm_insertionSort _ _).trans hperm.symm)
        (List.sorted_insertionSort _ _) hsorted
    exact ⟨hne, hnodup, heq ▸ hchain⟩

/-- C13, at the migrations with the IDs 3, 1 and 2, which pass, and at the migrations with
the IDs 1 and 3, which do not. -/
theorem TestIDConstraints_no_error_iff_witness :
    TestIDConstraints ["3_c.up.sql", "1_a.up.sql", "2_b.up.sql"] = .ok [] ∧
      TestIDConstraints ["1_a.up.sql", "3_c.up.sql"] ≠ .ok [] :=
  ⟨(TestIDConstraints_no_error_iff ["3_c.up.sql", "1_a.up.sql", "2_b.up.sql"] [3, 1, 2]
      (List.Forall₂.cons (by decide) (List.Forall₂.cons (by decide)
        (List.Forall₂.cons (by decide) List.Forall₂.nil)))).mpr
      ⟨by decide, by decide, [1, 2, 3], by decide, by decide, by simp⟩,
   fun h =>
    match (TestIDConstraints_no_error_iff ["1_a.up.sql", "3_c.up.sql"] [1, 3]
      (List.Forall₂.cons (by decide) (List.Forall₂.cons (by decide) List.Forall₂.nil))).mp h with
    | ⟨_, _, sorted, hperm, hsorted, hchain⟩ =>
      have heq : sorted = [1, 3] :=
        List.eq_of_perm_of_sorted hperm hsorted (by decide)
      absurd (heq ▸ hchain) (by simp)⟩

end Migrations

namespace Lsifstore

/-! ## Documentation search -/

theorem bindVerbs_cons_of_ne (c : Char) (l : List Char) (args : List SprintfArg)
    (hc : c ≠ '%') : bindVerbs (c :: l) args = bindVerbs l args := by
  cases l with
  | nil => simp [bindVerbs]
  | cons d rest => simp [bindVerbs, hc]

theorem bindVerbs_append_of_not_mem (t rest : List Char) (args : List SprintfArg)
    (ht : '%' ∉ t) : bindVerbs (t ++ rest) args = bindVerbs rest args := by
  induction t with
  | nil => rfl
  | cons c t ih =>
    simp only [List.mem_cons, not_or] at ht
    rw [List.cons_append, bindVerbs_cons_of_ne c _ args (fun h => ht.1 h.symm), ih ht.2]

theorem bindVerbs_verb (rest : List Char) (args : List SprintfArg) :
    bindVerbs ('%' :: 's' :: rest) args =
      match args with
      | [] => none :: bindVerbs rest []
      | arg :: args => some arg :: bindVerbs rest args := by
  cases args <;> simp [bindVerbs]

theorem bindVerbs_replaceSuffix (tableSuffix : String) (hsuffix : '%' ∉ tableSuffix.data)
    (pieces : List Piece) (hpieces : pieces.all percentFree = true) :
    ∀ args, bindVerbs (replaceSuffix tableSuffix pieces) args =
      takeArgs (verbCount pieces) args := by
  induction pieces with
  | nil => intro args; simp [replaceSuffix, bindVerbs, verbCount, takeArgs]
  | cons p pieces ih =>
    intro args
    simp only [List.all_cons, Bool.and_eq_true] at hpieces
    have ih2 := ih hpieces.2
    cases p with
    | text s =>
      have hs : '%' ∉ s.data := by
        have := hpieces.1
        simpa [percentFree] using this
      have hcons : replaceSuffix tableSuffix (Piece.text s :: pieces) =
          s.data ++ replaceSuffix tableSuffix pieces := by
        simp [replaceSuffix]
      rw [hcons, bindVerbs_append_of_not_mem _ _ _ hs, ih2]
      simp [verbCount]
    | suffix =>
      have hcons : replaceSuffix tableSuffix (Piece.suffix :: pieces) =
          tableSuffix.data ++ replaceSuffix tableSuffix pieces := by
        simp [replaceSuffix]
      rw [hcons, bindVerbs_append_of_not_mem _ _ _ hsuffix, ih2]
      simp [verbCount]
    | verb =>
      have hcons : replaceSuffix tableSuffix (Piece.verb :: pieces) =
          '%' :: 's' :: replaceSuffix tableSuffix pieces := by
        simp [replaceSuffix]
      rw [hcons, bindVerbs_verb]
      cases args with
      | nil => simp [ih2, verbCount, takeArgs]
      | cons arg args => simp [ih2, verbCount, takeArgs]

set_option maxRecDepth 100000 in
theorem documentationSearchQuery_percentFree :
    documentationSearchQuery.all percentFree = true := by
  decide

theorem documentationSearchQuery_verbCount : verbCount documentationSearchQuery = 9 := by
  decide

theorem limitParameter_of_percentFree (lexemes : String → List String)
    (reverse : String → String) (tableSuffix query : String)
    (hsuffix : '%' ∉ tableSuffix.data) :
    limitParameter (replaceSuffix tableSuffix documentationSearchQuery)
        (searchArgs lexemes reverse query) = some (.value (.int 50)) := by
  unfold limitParameter
  rw [bindVerbs_replaceSuffix tableSuffix hsuffix documentationSearchQuery
    documentationSearchQuery_percentFree, documentationSearchQuery_verbCount]
  simp [searchArgs, takeArgs]

theorem length_scanDocumentationSearchResults (rows : List SearchRow)
    (results : List DocumentationSearchResult)
    (h : scanDocumentationSearchResults (.ok rows) = .ok results) :
    results.length = rows.length := by
  simp only [scanDocumentationSearchResults, Except.ok.injEq] at h
  rw [← h, Dbstore.foldl_append_singleton]
  simp

set_option maxRecDepth 100000 in
/-- C16, counterexample: with the table suffix `%s` the format has 20 verbs for 9 arguments;
the constant 50 is bound to the ninth verb, the verb of the outer `LIMIT` gets no argument,
and the search fails. -/
theorem DocumentationSearch_limit_missing :
    limitParameter (replaceSuffix "%s" documentationSearchQuery)
        (searchArgs (fun s => [s]) (fun s => s) "go: mux") = none ∧
      (bindVerbs (replaceSuffix "%s" documentationSearchQuery)
        (searchArgs (fun s => [s]) (fun s => s) "go: mux")).length = 20 ∧
      (bindVerbs (replaceSuffix "%s" documentationSearchQuery)
        (searchArgs (fun s => [s]) (fun s => s) "go: mux")).get? 8 =
          some (some (.value (.int 50))) := by
  decide

/-- C16, amended: for every table suffix without `%` (such as `public` and `private`), every
query and every repository list, the argument bound to the outer `LIMIT` of the search query
is the constant 50, and when `DocumentationSearch` succeeds its result has one element per
row of the query, hence at most 50 elements. -/
theorem DocumentationSearch_at_most_50
    (candidates : List Char → List SprintfArg → Except String (List SearchRow))
    (lexemes : String → List String) (reverse : String → String)
    (tableSuffix query : String) (repos : List String)
    (hsuffix : '%' ∉ tableSuffix.data) :
    limitParameter (replaceSuffix tableSuffix documentationSearchQuery)
        (searchArgs lexemes reverse query) = some (.value (.int 50)) ∧
    ∀ results,
      DocumentationSearch candidates lexemes reverse tableSuffix query repos = .ok results →
        (∃ rows, searchQuery candidates (replaceSuffix tableSuffix documentationSearchQuery)
            (searchArgs lexemes reverse query) = .ok rows ∧ results.length = rows.length) ∧
          results.length ≤ 50 := by
  have hlimit := limitParameter_of_percentFree lexemes reverse tableSuffix query hsuffix
  refine ⟨hlimit, ?_⟩
  intro results hres
  unfold DocumentationSearch at hres
  simp only [] at hres
  cases hq : searchQuery candidates (replaceSuffix tableSuffix documentationSearchQuery)
      (searchArgs lexemes reverse query) with
  | error e =>
    rw [hq] at hres
    simp [scanDocumentationSearchResults] at hres
  | ok rows =>
    rw [hq] at hres
    have hlen := length_scanDocumentationSearchResults rows results hres
    refine ⟨⟨rows, rfl, hlen⟩, ?_⟩
    rw [hlen]
    unfold searchQuery at hq
    rw [hlimit] at hq
    simp only [] at hq
    cases hc : candidates (replaceSuffix tableSuffix documentationSearchQuery)
        (searchArgs lexemes reverse query) with
    | error e => rw [hc] at hq; simp at hq
    | ok all =>
      rw [hc] at hq
      simp only [Except.ok.injEq] at hq
      rw [← hq, List.length_take]
      exact le_trans (Nat.min_le_left _ _) (by decide)

/-- C16, amended, at the table suffix `public`. -/
theorem DocumentationSearch_at_most_50_witness :
    limitParameter (replaceSuffix "public" documentationSearchQuery)
        (searchArgs (fun s => [s]) (fun s => s) "go: mux") = some (.value (.int 50)) :=
  (DocumentationSearch_at_most_50 (fun _ _ => .ok []) (fun s => [s]) (fun s => s)
    "public" "go: mux" [] (by decide)).1

end Lsifstore
